import Mathlib

set_option maxRecDepth 2000

/-!
A shallow embedding of the heap allocator in `src/src/mem.c` (LP64, little endian).

Blocks are identified by their byte offset from the arena base `B`.  On LP64 both
headers are 16 bytes (`size_t` + pointer, resp. `size_t` + `uint64_t`), so
`MEM_FREE_BLOCK_SIZE = MEM_ALL_BLOCK_SIZE = 16` and `MEM_FREE_ALL_DIFF = 0`.

The free list is modelled as the list of free blocks in linked order; the
allocated blocks living in arena memory are modelled as a ghost list `allocList`
kept in address order (the C code has no such list: it is the contents of
memory).  `size_t`/`uint64_t` arithmetic is modelled on `Nat` with explicit
reduction modulo `2 ^ 64` (`cAdd`, `cSub`) at the operations the C source
performs on machine words.

Reads of memory that is not described by any block header (wild pointers) are
modelled by the result `CRes.undef`; an `assert` failure by `CRes.fatal`.
-/

namespace MemSpec

/-- SECRET_SIZE in mem.c: the 8-byte guard. -/
def SECRET_SIZE : Nat := 8

/-- sizeof(struct mem_free_block_s): 8-byte size_t plus 8-byte pointer. -/
def MEM_FREE_BLOCK_SIZE : Nat := 16

/-- sizeof(struct mem_allocated_block_s): 8-byte size_t plus 8-byte uint64_t. -/
def MEM_ALL_BLOCK_SIZE : Nat := 16

/-- max of the two header sizes. -/
def MEM_MAX_BLOCK_SIZE : Nat := 16

/-- min of the two header sizes. -/
def MEM_MIN_BLOCK_SIZE : Nat := 16

/-- -MEM_FREE_BLOCK_SIZE + MEM_ALL_BLOCK_SIZE computed in size_t arithmetic: 0. -/
def MEM_FREE_ALL_DIFF : Nat := 0

/-- The secret number installed by mem_init. -/
def SECRET_NUMBER : Nat := 0xDEADBEEFFEEDFACE

/-- 2^64, the modulus of size_t / uint64_t / pointer arithmetic. -/
def W64 : Nat := 2 ^ 64

/-- size_t addition (wraps modulo 2^64). -/
def cAdd (a b : Nat) : Nat := (a + b) % W64

/-- size_t subtraction (wraps modulo 2^64). -/
def cSub (a b : Nat) : Nat := (a % W64 + W64 - b % W64) % W64

/-- A free block header: offset of the block and its stored size field. -/
structure FB where
  addr : Nat
  size : Nat
deriving DecidableEq

/-- An allocated block header plus the payload bytes it owns.  `hguard` is the
guard stored in the header, `tguard` the 8 bytes stored at offset
`addr + MEM_ALL_BLOCK_SIZE + size - SECRET_SIZE` (the trailer), `data` the user
payload bytes (`size - SECRET_SIZE` of them). -/
structure AB where
  addr : Nat
  size : Nat
  hguard : Nat
  tguard : Nat
  data : List Nat
deriving DecidableEq

/-- The allocator state: arena length `N`, arena base address `base` (the C
pointer value of `memory_area`), the secret, the free list in linked order and
the ghost list of allocated headers present in memory, in address order. -/
structure Heap where
  N : Nat
  base : Nat
  secret : Nat
  freeList : List FB
  allocList : List AB
deriving DecidableEq

/-- Result of a C routine: normal return, assert failure, or behaviour that
depends on memory bytes outside the block model (wild reads). -/
inductive CRes (α : Type) where
  | ok (a : α)
  | fatal
  | undef
deriving DecidableEq

/-- guard(p) = ((uint64_t)(base + p)) ^ secret_number. -/
def guardOf (h : Heap) (p : Nat) : Nat :=
  Nat.xor ((h.base + p) % W64) (h.secret % W64)

/-- End offset of a free block: addr + MEM_FREE_BLOCK_SIZE + size. -/
def fbEnd (f : FB) : Nat := f.addr + MEM_FREE_BLOCK_SIZE + f.size

/-- End offset of an allocated block: addr + MEM_ALL_BLOCK_SIZE + size. -/
def abEnd (a : AB) : Nat := a.addr + MEM_ALL_BLOCK_SIZE + a.size

/-- The value of the header guard field after the 8-byte trailer write at offset
`MEM_ALL_BLOCK_SIZE + size - SECRET_SIZE`.  For `size < 8` that write lands
partly inside the guard field (bytes `8 + size .. 15` of the header receive the
low `8 - size` bytes of the trailer value `g`, little endian), so the stored
header guard becomes `g % 2^(8*size) + (g % 2^(8*(8-size))) * 2^(8*size)`.
For `size ≥ 8` the header is untouched. -/
def clobberGuard (g size : Nat) : Nat :=
  if SECRET_SIZE ≤ size then g
  else g % 2 ^ (8 * size) + g % 2 ^ (8 * (8 - size)) * 2 ^ (8 * size)

/-- mem_init: one free block covering the whole arena minus its header;
the secret is the fixed sentinel. -/
def mem_init (bse N : Nat) : Heap :=
  { N := N, base := bse, secret := SECRET_NUMBER,
    freeList := [⟨0, N - MEM_FREE_BLOCK_SIZE⟩], allocList := [] }

/-- search_block: advance the insertion slot while the current node's address is
below the block's.  Returns the (prefix, suffix) split of the free list at the
slot. -/
def search_block (p : Nat) (l : List FB) : List FB × List FB :=
  (l.takeWhile (fun f => f.addr < p), l.dropWhile (fun f => f.addr < p))

/-- remove_block: unlink the block at the slot if the slot points at it. -/
def remove_block (p : Nat) (l : List FB) : List FB :=
  match l with
  | [] => []
  | x :: xs => if x.addr = p then xs else x :: xs

/-- First half of insert_block: fuse with the right neighbour at the slot if it
is physically contiguous. -/
def insert_right (b : FB) (after : List FB) : FB × List FB :=
  match after with
  | [] => (b, [])
  | r :: rest =>
    if b.addr + b.size + MEM_FREE_BLOCK_SIZE = r.addr then
      (⟨b.addr, b.size + MEM_FREE_BLOCK_SIZE + r.size⟩, rest)
    else (b, r :: rest)

/-- Second half of insert_block: fuse with the previous free block if it is
physically contiguous, else link it in. -/
def insert_left (b : FB) (before after : List FB) : List FB :=
  match before.getLast? with
  | none => b :: after
  | some pl =>
    if pl.addr + MEM_FREE_BLOCK_SIZE + pl.size = b.addr then
      before.dropLast ++ ⟨pl.addr, pl.size + MEM_FREE_BLOCK_SIZE + b.size⟩ :: after
    else before ++ b :: after

/-- insert_block: insert block `b` at the slot `(before, after)` of the free
list, coalescing with the physically adjacent right and left neighbours. -/
def insert_block (b : FB) (before after : List FB) : List FB :=
  let ra := insert_right b after
  insert_left ra.1 before ra.2

/-- mem_first_fit: first free block whose size is at least the request. -/
def mem_first_fit (l : List FB) (size : Nat) : Option FB :=
  match l with
  | [] => none
  | x :: xs => if size ≤ x.size then some x else mem_first_fit xs size

/-- Loop of mem_best_fit: best candidate so far and its size
(initially SIZE_MAX). -/
def bestFitGo (l : List FB) (size : Nat) (best : Option FB) (bestSize : Nat) :
    Option FB :=
  match l with
  | [] => best
  | x :: xs =>
    if size ≤ x.size ∧ x.size < bestSize then bestFitGo xs size (some x) x.size
    else bestFitGo xs size best bestSize

/-- mem_best_fit: smallest fitting block, ties to the first encountered;
best_size starts at SIZE_MAX = 2^64 - 1. -/
def mem_best_fit (l : List FB) (size : Nat) : Option FB :=
  bestFitGo l size none (W64 - 1)

/-- Loop of mem_worst_fit. -/
def worstFitGo (l : List FB) (size : Nat) (worst : Option FB) (worstSize : Nat) :
    Option FB :=
  match l with
  | [] => worst
  | x :: xs =>
    if size ≤ x.size ∧ worstSize < x.size then worstFitGo xs size (some x) x.size
    else worstFitGo xs size worst worstSize

/-- mem_worst_fit: largest fitting block, ties to the first encountered. -/
def mem_worst_fit (l : List FB) (size : Nat) : Option FB :=
  worstFitGo l size none 0

/-- Ghost helper: insert an allocated header into the address-ordered ghost
list. -/
def insertAB (a : AB) (l : List AB) : List AB :=
  match l with
  | [] => [a]
  | x :: xs => if a.addr < x.addr then a :: x :: xs else x :: insertAB a xs

/-- Ghost helper: the allocated header at offset `p`, if any. -/
def findA (l : List AB) (p : Nat) : Option AB :=
  l.find? (fun a => a.addr == p)

/-- Ghost helper: drop the allocated header at offset `p`. -/
def removeA (l : List AB) (p : Nat) : List AB :=
  l.filter (fun a => a.addr != p)

/-- Ghost helper: replace the allocated header at offset `p`. -/
def replaceA (l : List AB) (p : Nat) (b : AB) : List AB :=
  l.map (fun a => if a.addr = p then b else a)

/-- Pad or truncate a byte list to length `n`; bytes of reused memory that the
program never wrote are modelled as zero. -/
def padTo (l : List Nat) (n : Nat) : List Nat :=
  l.take n ++ List.replicate (n - l.length) 0

/-- mem_alloc.  `fit` is the installed placement policy (a pointer into the
free list is modelled by the block value itself).  Returns the payload offset
(or none) and the new heap.  The wrap of `size += SECRET_SIZE` is kept
(`% 2^64`); the trailer write of a block of size < 8 lands partly inside the
header guard field, which `clobberGuard` reproduces. -/
def mem_alloc (fit : List FB → Nat → Option FB) (h : Heap) (s : Nat) :
    Option Nat × Heap :=
  let size := (s + SECRET_SIZE) % W64
  match fit h.freeList (size + MEM_FREE_ALL_DIFF) with
  | none => (none, h)
  | some block =>
    let ba := search_block block.addr h.freeList
    let after1 := remove_block block.addr ba.2
    let g := guardOf h block.addr
    if cSub (cSub block.size size) MEM_FREE_ALL_DIFF ≤
        MEM_MAX_BLOCK_SIZE + SECRET_SIZE then
      let size1 := cSub block.size MEM_FREE_ALL_DIFF
      (some (block.addr + MEM_ALL_BLOCK_SIZE),
       { h with freeList := ba.1 ++ after1,
                allocList := insertAB
                  ⟨block.addr, size1, clobberGuard g size1, g,
                   padTo [] (size1 - SECRET_SIZE)⟩ h.allocList })
    else
      let nfb : FB := ⟨block.addr + size + MEM_ALL_BLOCK_SIZE,
                       cSub (cSub block.size size) MEM_ALL_BLOCK_SIZE⟩
      (some (block.addr + MEM_ALL_BLOCK_SIZE),
       { h with freeList := insert_block nfb ba.1 after1,
                allocList := insertAB
                  ⟨block.addr, size, clobberGuard g size, g,
                   padTo [] (size - SECRET_SIZE)⟩ h.allocList })

/-- mem_free.  NULL and out-of-arena pointers are ignored; a pointer whose
header is not an allocated block reads indeterminate bytes (`undef`); a guard
mismatch trips the asserts (`fatal`); otherwise the block is converted in place
and inserted into the free list with coalescing. -/
def mem_free (h : Heap) (zone : Option Nat) : CRes Heap :=
  match zone with
  | none => CRes.ok h
  | some z =>
    if z < MEM_MIN_BLOCK_SIZE ∨ h.N - 1 ≤ z then CRes.ok h
    else
      let p := z - MEM_ALL_BLOCK_SIZE
      match findA h.allocList p with
      | none => CRes.undef
      | some b =>
        if b.hguard = guardOf h p ∧ b.tguard = guardOf h p then
          let nf : FB := ⟨p, cSub b.size MEM_FREE_ALL_DIFF⟩
          let ba := search_block p h.freeList
          CRes.ok { h with freeList := insert_block nf ba.1 ba.2,
                           allocList := removeA h.allocList p }
        else CRes.fatal

/-- mem_get_size.  Bounds failures and guard mismatches return 0; the size
returned is `block.size - SECRET_SIZE` in size_t arithmetic. -/
def mem_get_size (h : Heap) (zone : Option Nat) : CRes Nat :=
  match zone with
  | none => CRes.ok 0
  | some z =>
    if z < MEM_MIN_BLOCK_SIZE ∨ h.N - 1 ≤ z then CRes.ok 0
    else
      match findA h.allocList (z - MEM_ALL_BLOCK_SIZE) with
      | none => CRes.undef
      | some b =>
        if b.hguard ≠ guardOf h (z - MEM_ALL_BLOCK_SIZE) then CRes.ok 0
        else if b.tguard ≠ guardOf h (z - MEM_ALL_BLOCK_SIZE) then CRes.ok 0
        else CRes.ok (cSub b.size SECRET_SIZE)

/-- Case 3.1 of mem_realloc (shrink, right neighbour free).  The replacement
free header is written at `p + size + MEM_ALL_BLOCK_SIZE` BEFORE
`remove_block` reads `right->next`.  When the shrink is by 1..7 bytes
(`b.size < size + 8`) the 16-byte header store overlaps the low
`k = size + 8 - b.size` bytes of `right->next` (at `right + 8 .. right + 16`)
and zeroes them (the store writes the NULL `next` of the new header there,
little endian).  `remove_block` then reads that pointer: if `next` was NULL or
the pointer value `base + next.addr` is divisible by `2^(8k)` nothing changes;
if the whole pointer is below `2^(8k)` it reads NULL and the tail of the free
list is silently dropped; otherwise the slot now holds a garbage address and
the subsequent list state is not describable at block level (`undef`). -/
def realloc_shrink_right_free (h : Heap) (b : AB) (p size : Nat) (r : FB)
    (before rest : List FB) : CRes (Option Nat × Heap) :=
  let nf : FB := ⟨p + size + MEM_ALL_BLOCK_SIZE, r.size + cSub b.size size⟩
  let b' : AB :=
    { b with size := size, hguard := clobberGuard b.hguard size,
             tguard := guardOf h p, data := padTo b.data (size - SECRET_SIZE) }
  if b.size < size + SECRET_SIZE ∧ rest ≠ [] then
    match rest.head? with
    | none => CRes.undef
    | some nxt =>
      let k := size + SECRET_SIZE - b.size
      if (h.base + nxt.addr) % 2 ^ (8 * k) = 0 then
        CRes.ok (some (p + MEM_ALL_BLOCK_SIZE),
          { h with freeList := insert_block nf before rest,
                   allocList := replaceA h.allocList p b' })
      else if h.base + nxt.addr < 2 ^ (8 * k) then
        CRes.ok (some (p + MEM_ALL_BLOCK_SIZE),
          { h with freeList := insert_block nf before [],
                   allocList := replaceA h.allocList p b' })
      else CRes.undef
  else
    CRes.ok (some (p + MEM_ALL_BLOCK_SIZE),
      { h with freeList := insert_block nf before rest,
               allocList := replaceA h.allocList p b' })

/-- Cases 3.2.1 / 3.2.2 of mem_realloc (shrink, right neighbour not free):
either nothing to do, or carve a free block out of the tail. -/
def realloc_shrink_right_alloc (h : Heap) (b : AB) (p size : Nat)
    (before after : List FB) : CRes (Option Nat × Heap) :=
  if cSub b.size size ≤ MEM_MAX_BLOCK_SIZE + SECRET_SIZE then
    CRes.ok (some (p + MEM_ALL_BLOCK_SIZE), h)
  else
    let nf : FB := ⟨p + size + MEM_ALL_BLOCK_SIZE,
                    cSub (cSub b.size size) MEM_FREE_BLOCK_SIZE⟩
    let b' : AB :=
      { b with size := size, hguard := clobberGuard b.hguard size,
               tguard := guardOf h p, data := padTo b.data (size - SECRET_SIZE) }
    CRes.ok (some (p + MEM_ALL_BLOCK_SIZE),
      { h with freeList := insert_block nf before after,
               allocList := replaceA h.allocList p b' })

/-- Case 4.1 of mem_realloc (grow, relocation): fresh allocation, memcpy of
`b.size - SECRET_SIZE` bytes, free of the old block.  A memcpy whose length
underflowed (`b.size < 8`) is undefined behaviour. -/
def realloc_grow_reloc_case (fit : List FB → Nat → Option FB) (h : Heap)
    (b : AB) (p size : Nat) : CRes (Option Nat × Heap) :=
  match mem_alloc fit h (cSub size SECRET_SIZE) with
  | (none, _) => CRes.ok (none, h)
  | (some q, h1) =>
    if b.size < SECRET_SIZE then CRes.undef
    else
      match findA h1.allocList (q - MEM_ALL_BLOCK_SIZE) with
      | none => CRes.undef
      | some nb =>
        let L := cSub b.size SECRET_SIZE
        let nb' : AB := { nb with data := b.data.take L ++ nb.data.drop L }
        match mem_free { h1 with allocList := replaceA h1.allocList
                                   (q - MEM_ALL_BLOCK_SIZE) nb' }
                (some (p + MEM_ALL_BLOCK_SIZE)) with
        | CRes.ok h2 => CRes.ok (some q, h2)
        | CRes.fatal => CRes.fatal
        | CRes.undef => CRes.undef

/-- Cases 4.2.1 / 4.2.2 of mem_realloc (grow in place into the free right
neighbour): absorb it whole, or split it. -/
def realloc_grow_inplace (h : Heap) (b : AB) (p size : Nat) (r : FB)
    (before rest : List FB) : CRes (Option Nat × Heap) :=
  let residual := cAdd (cAdd (cSub r.size size) b.size) MEM_FREE_BLOCK_SIZE
  if residual ≤ MEM_MAX_BLOCK_SIZE + SECRET_SIZE then
    let newsize := cAdd b.size (cAdd r.size MEM_FREE_BLOCK_SIZE)
    let b' : AB :=
      { b with size := newsize,
               hguard := clobberGuard b.hguard newsize,
               tguard := guardOf h p,
               data := padTo b.data (newsize - SECRET_SIZE) }
    CRes.ok (some (p + MEM_ALL_BLOCK_SIZE),
      { h with freeList := before ++ rest,
               allocList := replaceA h.allocList p b' })
  else
    let nf : FB := ⟨p + size + MEM_ALL_BLOCK_SIZE, cAdd (cSub r.size size) b.size⟩
    let b' : AB :=
      { b with size := size, hguard := clobberGuard b.hguard size,
               tguard := guardOf h p,
               data := padTo b.data (size - SECRET_SIZE) }
    CRes.ok (some (p + MEM_ALL_BLOCK_SIZE),
      { h with freeList := insert_block nf before rest,
               allocList := replaceA h.allocList p b' })

/-- mem_realloc: dispatch following the case analysis of the C source. -/
def mem_realloc (fit : List FB → Nat → Option FB) (h : Heap)
    (zone : Option Nat) (s : Nat) : CRes (Option Nat × Heap) :=
  match zone with
  | none => CRes.ok (mem_alloc fit h s)
  | some z =>
    if z < MEM_MIN_BLOCK_SIZE ∨ h.N - 1 ≤ z then CRes.ok (none, h)
    else if s = 0 then
      match mem_free h (some z) with
      | CRes.ok h1 => CRes.ok (mem_alloc fit h1 0)
      | CRes.fatal => CRes.fatal
      | CRes.undef => CRes.undef
    else
      let size := (s + SECRET_SIZE) % W64
      let p := z - MEM_ALL_BLOCK_SIZE
      match findA h.allocList p with
      | none => CRes.undef
      | some b =>
        if b.hguard = guardOf h p ∧ b.tguard = guardOf h p then
          if size = b.size then CRes.ok (some z, h)
          else
            let rightAddr := p + b.size + MEM_ALL_BLOCK_SIZE
            let ba := search_block rightAddr h.freeList
            if size < b.size then
              match ba.2 with
              | r :: rest =>
                if r.addr = rightAddr then
                  realloc_shrink_right_free h b p size r ba.1 rest
                else realloc_shrink_right_alloc h b p size ba.1 (r :: rest)
              | [] => realloc_shrink_right_alloc h b p size ba.1 []
            else
              match ba.2 with
              | r :: rest =>
                if r.addr = rightAddr ∧
                    ¬ (cAdd r.size MEM_FREE_BLOCK_SIZE < cSub size b.size) then
                  realloc_grow_inplace h b p size r ba.1 rest
                else realloc_grow_reloc_case fit h b p size
              | [] => realloc_grow_reloc_case fit h b p size
        else CRes.fatal

/-- An event reported to the visitor of mem_show: payload offset, the size
argument, and whether the block was reported free. -/
structure Ev where
  pay : Nat
  usize : Nat
  isFree : Bool
deriving DecidableEq

/-- The inner loops of mem_show: walk allocated headers from offset `a` until
the walk reaches the target free-block pointer or MEM_SPACE_MAX.  `target` is
the pointer value to compare against (`none` is NULL: never equal to a block
address since the arena base is positive).  A header that is not an allocated
block would be a junk read; the walk is only invoked on well-formed heaps where
that cannot happen, so the model just stops. -/
def showWalk (h : Heap) : Nat → Nat → Option Nat → List Ev
  | 0, _, _ => []
  | fuel + 1, a, target =>
    if some a = target ∨ h.N - 1 ≤ a then []
    else
      match findA h.allocList a with
      | none => []
      | some b =>
        ⟨a + MEM_ALL_BLOCK_SIZE, cSub b.size SECRET_SIZE, false⟩ ::
          showWalk h fuel (a + MEM_ALL_BLOCK_SIZE + b.size) target

/-- The outer loop of mem_show: report each free block, then walk the allocated
blocks between it and the next free block. -/
def showFrees (h : Heap) : List FB → List Ev
  | [] => []
  | f :: fl =>
    ⟨f.addr + MEM_FREE_BLOCK_SIZE, cSub f.size SECRET_SIZE, true⟩ ::
      (showWalk h h.N (f.addr + MEM_FREE_BLOCK_SIZE + f.size)
        (fl.head?.map FB.addr) ++ showFrees h fl)

/-- mem_show: first the allocated blocks before the first free block, then the
alternation of free blocks and allocated runs. -/
def mem_show (h : Heap) : List Ev :=
  showWalk h h.N 0 (h.freeList.head?.map FB.addr) ++ showFrees h h.freeList

/-- Sum of the whole-block footprints of the free list. -/
def sumFB (l : List FB) : Nat :=
  (l.map (fun f => MEM_FREE_BLOCK_SIZE + f.size)).sum

/-- Sum of the whole-block footprints of the allocated blocks. -/
def sumAB (l : List AB) : Nat :=
  (l.map (fun a => MEM_ALL_BLOCK_SIZE + a.size)).sum

/-- Decidability of List.Chain by structural recursion, so that it reduces in
the kernel. -/
def decChain {α : Type} (R : α → α → Prop) [DecidableRel R] :
    ∀ (a : α) (l : List α), Decidable (List.Chain R a l)
  | _, [] => isTrue List.Chain.nil
  | a, b :: t =>
    match decChain R b t with
    | isTrue h =>
      match inferInstanceAs (Decidable (R a b)) with
      | isTrue hr => isTrue (List.Chain.cons hr h)
      | isFalse hr => isFalse (fun hc => hr (List.rel_of_chain_cons hc))
    | isFalse h => isFalse (fun hc => h (List.chain_of_chain_cons hc))

instance (priority := 2000) {α : Type} (R : α → α → Prop) [DecidableRel R]
    (l : List α) : Decidable (List.Chain' R l) :=
  match l with
  | [] => isTrue trivial
  | a :: t => decChain R a t

/-- Well-formedness of a heap state: bounded arena, positive base, free list
strictly ascending with no two free blocks physically adjacent, ghost allocated
list address-sorted and disjoint, every block inside the arena, free and
allocated blocks mutually disjoint, the block footprints summing to the arena
length, every free block at least 8 bytes of payload, and every allocated block
at least 8 bytes of payload with intact guards and payload bytes matching its
size. -/
def WF (h : Heap) : Prop :=
  h.N < W64 ∧ 0 < h.base ∧
  h.freeList.Chain' (fun a b => fbEnd a < b.addr) ∧
  h.allocList.Chain' (fun a b => abEnd a ≤ b.addr) ∧
  (∀ f ∈ h.freeList, fbEnd f ≤ h.N ∧ SECRET_SIZE ≤ f.size) ∧
  (∀ f ∈ h.freeList, ∀ a ∈ h.allocList, fbEnd f ≤ a.addr ∨ abEnd a ≤ f.addr) ∧
  sumFB h.freeList + sumAB h.allocList = h.N ∧
  (∀ a ∈ h.allocList, abEnd a ≤ h.N ∧ SECRET_SIZE ≤ a.size ∧
    a.hguard = guardOf h a.addr ∧ a.tguard = guardOf h a.addr ∧
    a.data.length = a.size - SECRET_SIZE)

instance (h : Heap) : Decidable (WF h) :=
  inferInstanceAs (Decidable (_ ∧ _ ∧ _ ∧ _ ∧ _ ∧ _ ∧ _ ∧ _))

/-- A placement policy is sound when any block it returns is a member of the
list it was given and large enough for the request. -/
def FitOK (fit : List FB → Nat → Option FB) : Prop :=
  ∀ l req b, fit l req = some b → b ∈ l ∧ req ≤ b.size

/-! ### Arithmetic helper lemmas -/

theorem W64_pos : 0 < W64 := by decide

theorem mod64_eq {a : Nat} (h : a < W64) : a % W64 = a := Nat.mod_eq_of_lt h

theorem cSub_eq {a b : Nat} (hb : b ≤ a) (ha : a < W64) : cSub a b = a - b := by
  unfold cSub
  rw [Nat.mod_eq_of_lt ha, Nat.mod_eq_of_lt (Nat.lt_of_le_of_lt hb ha)]
  have h2 : a + W64 - b = a - b + W64 := by omega
  rw [h2, Nat.add_mod_right, Nat.mod_eq_of_lt (by omega)]

theorem cSub_zero {a : Nat} (ha : a < W64) : cSub a 0 = a := by
  rw [cSub_eq (Nat.zero_le a) ha]
  omega

theorem clobberGuard_ge {g s : Nat} (h : SECRET_SIZE ≤ s) :
    clobberGuard g s = g := if_pos h

/-! ### Sorted free-list lemmas -/

/-- The separation relation the free list maintains: strictly ascending, with a
gap between the end of one block and the start of the next. -/
def fbSep (a b : FB) : Prop := fbEnd a < b.addr

theorem fbSep_trans : ∀ {a b c : FB}, fbSep a b → fbSep b c → fbSep a c := by
  intro a b c h1 h2
  unfold fbSep fbEnd at *
  omega

theorem chain_pairwise {l : List FB} (h : l.Chain' fbSep) : l.Pairwise fbSep := by
  haveI : IsTrans FB fbSep := ⟨fun _ _ _ => fbSep_trans⟩
  exact List.chain'_iff_pairwise.mp h

theorem fbSep_addr_lt {a b : FB} (h : fbSep a b) : a.addr < b.addr := by
  unfold fbSep fbEnd at h
  omega

/-- Splitting a sorted free list at a member block: the takeWhile/dropWhile
search of the C code stops exactly at the block. -/
theorem sorted_split {l : List FB} (hch : l.Chain' fbSep) {b : FB} (hb : b ∈ l) :
    ∃ t1 t2, l = t1 ++ b :: t2 ∧
      l.takeWhile (fun f => f.addr < b.addr) = t1 ∧
      l.dropWhile (fun f => f.addr < b.addr) = b :: t2 := by
  induction l with
  | nil => cases hb
  | cons x xs ih =>
    by_cases hx : x = b
    · subst hx
      refine ⟨[], xs, rfl, ?_, ?_⟩
      · rw [List.takeWhile_cons]
        simp
      · rw [List.dropWhile_cons]
        simp
    · have hbxs : b ∈ xs := by
        rcases List.mem_cons.mp hb with h | h
        · exact absurd h.symm hx
        · exact h
      have hpw := chain_pairwise hch
      have hxb : fbSep x b := (List.pairwise_cons.mp hpw).1 b hbxs
      have hlt : x.addr < b.addr := fbSep_addr_lt hxb
      obtain ⟨t1, t2, hsplit, htake, hdrop⟩ := ih hch.tail hbxs
      refine ⟨x :: t1, t2, by rw [hsplit, List.cons_append], ?_, ?_⟩
      · rw [List.takeWhile_cons]
        simp [hlt, htake]
      · rw [List.dropWhile_cons]
        simp [hlt, hdrop]

/-- takeWhile/dropWhile across an append whose prefix satisfies the predicate
and whose suffix starts with a failure. -/
theorem split_append {p : FB → Bool} {l1 l2 : List FB}
    (h1 : ∀ x ∈ l1, p x = true) (h2 : ∀ y ∈ l2.head?, p y = false) :
    (l1 ++ l2).takeWhile p = l1 ∧ (l1 ++ l2).dropWhile p = l2 := by
  induction l1 with
  | nil =>
    simp only [List.nil_append]
    cases l2 with
    | nil => simp
    | cons y ys =>
      have := h2 y rfl
      constructor
      · rw [List.takeWhile_cons, this]
        simp
      · rw [List.dropWhile_cons, this]
        simp
  | cons x xs ih =>
    have hx := h1 x (by simp)
    have hrest := ih (fun z hz => h1 z (by simp [hz]))
    constructor
    · rw [List.cons_append, List.takeWhile_cons, hx]
      simp [hrest.1]
    · rw [List.cons_append, List.dropWhile_cons, hx]
      simp [hrest.2]

theorem remove_block_cons {b : FB} {t : List FB} :
    remove_block b.addr (b :: t) = t := by
  simp [remove_block]

/-- insert_block when neither neighbour is contiguous: plain insertion. -/
theorem insert_block_no_fuse (b : FB) (before after : List FB)
    (hr : ∀ r ∈ after.head?, b.addr + b.size + MEM_FREE_BLOCK_SIZE ≠ r.addr)
    (hl : ∀ pl ∈ before.getLast?, pl.addr + MEM_FREE_BLOCK_SIZE + pl.size ≠ b.addr) :
    insert_block b before after = before ++ b :: after := by
  have step : insert_left b before after = before ++ b :: after := by
    unfold insert_left
    cases hgl : before.getLast? with
    | none => simp [List.getLast?_eq_none_iff.mp hgl]
    | some pl => simp [hl pl hgl]
  cases after with
  | nil =>
    simp only [insert_block, insert_right]
    exact step
  | cons r rest =>
    simp only [insert_block, insert_right, if_neg (hr r rfl)]
    exact step

/-- insert_block when the right neighbour is contiguous but the left is not:
fuse with the right block. -/
theorem insert_block_right_fuse (b r : FB) (before rest : List FB)
    (hf : b.addr + b.size + MEM_FREE_BLOCK_SIZE = r.addr)
    (hl : ∀ pl ∈ before.getLast?,
      pl.addr + MEM_FREE_BLOCK_SIZE + pl.size ≠ b.addr) :
    insert_block b before (r :: rest) =
      before ++ (⟨b.addr, b.size + MEM_FREE_BLOCK_SIZE + r.size⟩ : FB) :: rest := by
  simp only [insert_block, insert_right, if_pos hf]
  unfold insert_left
  cases hgl : before.getLast? with
  | none => simp [List.getLast?_eq_none_iff.mp hgl]
  | some pl => simp [hl pl hgl]

/-! ### Ghost allocated-list lemmas -/

theorem findA_nil {p : Nat} : findA [] p = none := rfl

theorem findA_cons_pos {x : AB} {xs : List AB} {p : Nat} (h : x.addr = p) :
    findA (x :: xs) p = some x := by
  simp [findA, List.find?, h]

theorem findA_cons_neg {x : AB} {xs : List AB} {p : Nat} (h : x.addr ≠ p) :
    findA (x :: xs) p = findA xs p := by
  have hb : (x.addr == p) = false := by simp [h]
  simp [findA, List.find?, hb]

theorem removeA_nil {p : Nat} : removeA [] p = [] := rfl

theorem removeA_cons_ne {x : AB} {xs : List AB} {p : Nat} (h : x.addr ≠ p) :
    removeA (x :: xs) p = x :: removeA xs p := by
  have hb : (x.addr != p) = true := by simp [h]
  simp only [removeA, List.filter_cons, hb, if_pos]

theorem removeA_cons_eq {x : AB} {xs : List AB} {p : Nat} (h : x.addr = p) :
    removeA (x :: xs) p = removeA xs p := by
  have hb : (x.addr != p) = false := by simp [h]
  simp only [removeA, List.filter_cons, hb]
  simp

theorem findA_insertAB_self {a : AB} {l : List AB}
    (h : ∀ x ∈ l, x.addr ≠ a.addr) :
    findA (insertAB a l) a.addr = some a := by
  induction l with
  | nil =>
    unfold insertAB
    exact findA_cons_pos rfl
  | cons x xs ih =>
    unfold insertAB
    by_cases hlt : a.addr < x.addr
    · rw [if_pos hlt]
      exact findA_cons_pos rfl
    · rw [if_neg hlt, findA_cons_neg (h x (by simp))]
      exact ih (fun z hz => h z (by simp [hz]))

theorem findA_insertAB_other {a : AB} {l : List AB} {p : Nat}
    (h : a.addr ≠ p) : findA (insertAB a l) p = findA l p := by
  induction l with
  | nil =>
    unfold insertAB
    rw [findA_cons_neg h]
  | cons x xs ih =>
    unfold insertAB
    by_cases hlt : a.addr < x.addr
    · rw [if_pos hlt, findA_cons_neg h]
    · rw [if_neg hlt]
      by_cases hx : x.addr = p
      · rw [findA_cons_pos hx, findA_cons_pos hx]
      · rw [findA_cons_neg hx, findA_cons_neg hx]
        exact ih

theorem removeA_insertAB {a : AB} {l : List AB} :
    removeA (insertAB a l) a.addr = removeA l a.addr := by
  induction l with
  | nil =>
    unfold insertAB
    rw [removeA_cons_eq rfl]
  | cons x xs ih =>
    unfold insertAB
    by_cases hlt : a.addr < x.addr
    · rw [if_pos hlt, removeA_cons_eq rfl]
    · rw [if_neg hlt]
      by_cases hx : x.addr = a.addr
      · rw [removeA_cons_eq hx, removeA_cons_eq hx, ih]
      · rw [removeA_cons_ne hx, removeA_cons_ne hx, ih]

theorem removeA_id {l : List AB} {p : Nat} (h : ∀ x ∈ l, x.addr ≠ p) :
    removeA l p = l := by
  induction l with
  | nil => rfl
  | cons x xs ih =>
    rw [removeA_cons_ne (h x (by simp))]
    rw [ih (fun z hz => h z (by simp [hz]))]

theorem findA_mem {l : List AB} {p : Nat} {b : AB} (h : findA l p = some b) :
    b ∈ l ∧ b.addr = p := by
  unfold findA at h
  refine ⟨List.mem_of_find?_eq_some h, ?_⟩
  have := List.find?_some h
  simpa using this

/-- Shape of a successful mem_alloc that refuses to split (remainder at most
Hmax + G): the chosen block is promoted whole. -/
theorem mem_alloc_eq_nosplit {fit : List FB → Nat → Option FB} {h : Heap}
    {k : Nat} {block : FB} {t1 t2 : List FB}
    (hf : fit h.freeList ((k + SECRET_SIZE) % W64 + MEM_FREE_ALL_DIFF) = some block)
    (hk : k + SECRET_SIZE < W64) (hbsW : block.size < W64)
    (hreq : k + SECRET_SIZE ≤ block.size)
    (htake : h.freeList.takeWhile (fun f => f.addr < block.addr) = t1)
    (hdrop : h.freeList.dropWhile (fun f => f.addr < block.addr) = block :: t2)
    (hcond : block.size - (k + SECRET_SIZE) ≤ MEM_MAX_BLOCK_SIZE + SECRET_SIZE) :
    mem_alloc fit h k = (some (block.addr + MEM_ALL_BLOCK_SIZE),
      { h with freeList := t1 ++ t2,
               allocList := insertAB ⟨block.addr, block.size,
                 guardOf h block.addr, guardOf h block.addr,
                 padTo [] (block.size - SECRET_SIZE)⟩ h.allocList }) := by
  have hsz : (k + SECRET_SIZE) % W64 = k + SECRET_SIZE := mod64_eq hk
  have e1 : cSub block.size ((k + SECRET_SIZE) % W64) = block.size - (k + SECRET_SIZE) := by
    rw [hsz]
    exact cSub_eq hreq hbsW
  have e2 : cSub (block.size - (k + SECRET_SIZE)) MEM_FREE_ALL_DIFF =
      block.size - (k + SECRET_SIZE) := cSub_zero (by omega)
  have e3 : cSub block.size MEM_FREE_ALL_DIFF = block.size := cSub_zero hbsW
  simp only [mem_alloc, hf, search_block, htake, hdrop, remove_block_cons,
    e1, e2, e3, if_pos hcond, clobberGuard_ge (by omega : SECRET_SIZE ≤ block.size)]

/-- Shape of a successful mem_alloc that splits the chosen block. -/
theorem mem_alloc_eq_split {fit : List FB → Nat → Option FB} {h : Heap}
    {k : Nat} {block : FB} {t1 t2 : List FB}
    (hf : fit h.freeList ((k + SECRET_SIZE) % W64 + MEM_FREE_ALL_DIFF) = some block)
    (hk : k + SECRET_SIZE < W64) (hbsW : block.size < W64)
    (hreq : k + SECRET_SIZE ≤ block.size)
    (htake : h.freeList.takeWhile (fun f => f.addr < block.addr) = t1)
    (hdrop : h.freeList.dropWhile (fun f => f.addr < block.addr) = block :: t2)
    (hcond : ¬ block.size - (k + SECRET_SIZE) ≤ MEM_MAX_BLOCK_SIZE + SECRET_SIZE) :
    mem_alloc fit h k = (some (block.addr + MEM_ALL_BLOCK_SIZE),
      { h with freeList := insert_block
                 ⟨block.addr + (k + SECRET_SIZE) + MEM_ALL_BLOCK_SIZE,
                  block.size - (k + SECRET_SIZE) - MEM_ALL_BLOCK_SIZE⟩ t1 t2,
               allocList := insertAB ⟨block.addr, k + SECRET_SIZE,
                 guardOf h block.addr, guardOf h block.addr,
                 padTo [] (k + SECRET_SIZE - SECRET_SIZE)⟩ h.allocList }) := by
  have hsz : (k + SECRET_SIZE) % W64 = k + SECRET_SIZE := mod64_eq hk
  have e1 : cSub block.size ((k + SECRET_SIZE) % W64) = block.size - (k + SECRET_SIZE) := by
    rw [hsz]
    exact cSub_eq hreq hbsW
  have e2 : cSub (block.size - (k + SECRET_SIZE)) MEM_FREE_ALL_DIFF =
      block.size - (k + SECRET_SIZE) := cSub_zero (by omega)
  have e4 : cSub (block.size - (k + SECRET_SIZE)) MEM_ALL_BLOCK_SIZE =
      block.size - (k + SECRET_SIZE) - MEM_ALL_BLOCK_SIZE := by
    refine cSub_eq ?_ (by omega)
    simp only [MEM_MAX_BLOCK_SIZE, SECRET_SIZE] at hcond
    simp only [MEM_ALL_BLOCK_SIZE, SECRET_SIZE]
    omega
  simp only [mem_alloc, hf, search_block, htake, hdrop, remove_block_cons,
    e1, e2, e4, if_neg hcond]
  simp only [hsz, clobberGuard_ge (by omega : SECRET_SIZE ≤ k + SECRET_SIZE)]

/-- Shape of a successful mem_free on a valid allocated block. -/
theorem mem_free_eq {h : Heap} {z : Nat} {b : AB}
    (hz1 : MEM_MIN_BLOCK_SIZE ≤ z) (hz2 : z + 1 < h.N)
    (hfind : findA h.allocList (z - MEM_ALL_BLOCK_SIZE) = some b)
    (hg1 : b.hguard = guardOf h (z - MEM_ALL_BLOCK_SIZE))
    (hg2 : b.tguard = guardOf h (z - MEM_ALL_BLOCK_SIZE))
    (hbW : b.size < W64) :
    mem_free h (some z) = CRes.ok
      { h with freeList := insert_block ⟨z - MEM_ALL_BLOCK_SIZE, b.size⟩
                 (h.freeList.takeWhile (fun f => f.addr < z - MEM_ALL_BLOCK_SIZE))
                 (h.freeList.dropWhile (fun f => f.addr < z - MEM_ALL_BLOCK_SIZE)),
               allocList := removeA h.allocList (z - MEM_ALL_BLOCK_SIZE) } := by
  have hnot : ¬ (z < MEM_MIN_BLOCK_SIZE ∨ h.N - 1 ≤ z) := by
    unfold MEM_MIN_BLOCK_SIZE at *
    omega
  have e1 : cSub b.size MEM_FREE_ALL_DIFF = b.size := cSub_zero hbW
  simp only [mem_free, if_neg hnot, hfind, if_pos (And.intro hg1 hg2),
    search_block, e1]

theorem cs1 : SECRET_SIZE = 8 := rfl

theorem cs2 : MEM_FREE_BLOCK_SIZE = 16 := rfl

theorem cs3 : MEM_ALL_BLOCK_SIZE = 16 := rfl

theorem cs4 : MEM_MAX_BLOCK_SIZE = 16 := rfl

theorem cs5 : MEM_MIN_BLOCK_SIZE = 16 := rfl

theorem cs6 : MEM_FREE_ALL_DIFF = 0 := rfl

/-- Facts extracted from a chosen free block on a well-formed heap. -/
theorem alloc_block_facts {h : Heap} (hwf : WF h) {block : FB}
    (hmem : block ∈ h.freeList) :
    fbEnd block ≤ h.N ∧ SECRET_SIZE ≤ block.size ∧ block.size < W64 ∧
    (∀ x ∈ h.allocList, x.addr ≠ block.addr) := by
  obtain ⟨hN, hbase, hfch, hach, hfar, hdisj, hsum, hal⟩ := hwf
  obtain ⟨hb1, hb2⟩ := hfar block hmem
  refine ⟨hb1, hb2, ?_, ?_⟩
  · have hb1' : block.addr + MEM_FREE_BLOCK_SIZE + block.size ≤ h.N := hb1
    have c2 := cs2
    omega
  · intro x hx heq
    have hd := hdisj block hmem x hx
    unfold fbEnd abEnd at hd
    have c2 := cs2
    have c3 := cs3
    rcases hd with hd | hd <;> omega

/-- C5 (amended): for every well-formed heap and every user size k whose
effective size does not wrap (k + 8 < 2^64), mem_free after mem_alloc(k)
restores the heap exactly, not merely up to free-list equivalence: a failed
allocation leaves the heap unchanged and free(NULL) is a no-op, and after a
successful allocation freeing the returned payload yields precisely the
pre-allocation heap. -/
theorem free_alloc_roundtrip (fit : List FB → Nat → Option FB) (h : Heap)
    (k : Nat) (hwf : WF h) (hfit : FitOK fit) (hk : k + SECRET_SIZE < W64) :
    (∀ h1, mem_alloc fit h k = (none, h1) →
       h1 = h ∧ mem_free h1 none = CRes.ok h1) ∧
    (∀ q h1, mem_alloc fit h k = (some q, h1) →
       mem_free h1 (some q) = CRes.ok h) := by
  cases hf : fit h.freeList ((k + SECRET_SIZE) % W64 + MEM_FREE_ALL_DIFF) with
  | none =>
    constructor
    · intro h1 he
      simp only [mem_alloc, hf, Prod.mk.injEq] at he
      exact ⟨he.2.symm, by rw [← he.2]; rfl⟩
    · intro q h1 he
      simp only [mem_alloc, hf, Prod.mk.injEq] at he
      simp at he
  | some block =>
    obtain ⟨hmemb, hreq0⟩ := hfit _ _ _ hf
    have hreq : k + SECRET_SIZE ≤ block.size := by
      rw [mod64_eq hk] at hreq0
      simpa [MEM_FREE_ALL_DIFF] using hreq0
    obtain ⟨hbend, hbmin, hbsW, hane⟩ := alloc_block_facts hwf hmemb
    obtain ⟨hN, hbase, hfch, hach, hfar, hdisj, hsum, hal⟩ := hwf
    obtain ⟨t1, t2, hsplit, htake, hdrop⟩ := sorted_split hfch hmemb
    have hpw := chain_pairwise hfch
    rw [hsplit] at hpw
    obtain ⟨hpw1, hpwb2, hcross⟩ := List.pairwise_append.mp hpw
    obtain ⟨hbt2, hpw2⟩ := List.pairwise_cons.mp hpwb2
    -- facts used by the search and insertion on both branches
    have ht1lt : ∀ x ∈ t1, (decide (x.addr < block.addr)) = true := by
      intro x hx
      exact decide_eq_true (fbSep_addr_lt (hcross x hx block (by simp)))
    have ht1last : ∀ pl ∈ t1.getLast?,
        pl.addr + MEM_FREE_BLOCK_SIZE + pl.size ≠ block.addr := by
      intro pl hpl
      have := hcross pl (List.mem_of_getLast?_eq_some hpl) block (by simp)
      unfold fbSep fbEnd at this
      omega
    have ht2head : ∀ y ∈ t2.head?, (decide (y.addr < block.addr)) = false := by
      intro y hy
      have := hbt2 y (List.mem_of_mem_head? hy)
      have := fbSep_addr_lt this
      simp
      omega
    have hbend' : block.addr + MEM_FREE_BLOCK_SIZE + block.size ≤ h.N := hbend
    have hz1 : MEM_MIN_BLOCK_SIZE ≤ block.addr + MEM_ALL_BLOCK_SIZE := by
      simp [MEM_MIN_BLOCK_SIZE, MEM_ALL_BLOCK_SIZE]
    have hzsub : block.addr + MEM_ALL_BLOCK_SIZE - MEM_ALL_BLOCK_SIZE = block.addr := by
      omega
    by_cases hcond : block.size - (k + SECRET_SIZE) ≤ MEM_MAX_BLOCK_SIZE + SECRET_SIZE
    · -- no-split branch
      have halloc := mem_alloc_eq_nosplit hf hk hbsW hreq htake hdrop hcond
      constructor
      · intro h1 he
        rw [halloc] at he
        simp [Prod.mk.injEq] at he
      · intro q h1 he
        rw [halloc] at he
        simp only [Prod.mk.injEq, Option.some.injEq] at he
        obtain ⟨hq, hh1⟩ := he
        subst hq
        subst hh1
        have hfree := mem_free_eq
          (h :=
            { h with
              freeList := t1 ++ t2
              allocList := insertAB ⟨block.addr, block.size,
                guardOf h block.addr, guardOf h block.addr,
                padTo [] (block.size - SECRET_SIZE)⟩ h.allocList })
          (z := block.addr + MEM_ALL_BLOCK_SIZE)
          (b := ⟨block.addr, block.size, guardOf h block.addr,
                 guardOf h block.addr, padTo [] (block.size - SECRET_SIZE)⟩)
          hz1 (by
            show block.addr + MEM_ALL_BLOCK_SIZE + 1 < h.N
            have c1 := cs1
            have c2 := cs2
            have c3 := cs3
            omega)
          (by rw [hzsub]; exact findA_insertAB_self hane)
          (by rw [hzsub]; rfl) (by rw [hzsub]; rfl) hbsW
        rw [hfree]
        dsimp only
        simp only [hzsub]
        rw [(split_append ht1lt ht2head).1, (split_append ht1lt ht2head).2]
        rw [insert_block_no_fuse _ _ _
          (by
            intro r hr
            have := hbt2 r (List.mem_of_mem_head? hr)
            unfold fbSep fbEnd at this
            omega)
          ht1last]
        rw [removeA_insertAB, removeA_id hane]
        rw [← hsplit]
    · -- split branch
      have halloc := mem_alloc_eq_split hf hk hbsW hreq htake hdrop hcond
      have c1 := cs1
      have c2 := cs2
      have c3 := cs3
      have c4 := cs4
      have hcond' : ¬ block.size - (k + SECRET_SIZE) ≤ 16 + 8 := by
        rw [← cs4, ← cs1]
        exact hcond
      have hins1 : insert_block
          ⟨block.addr + (k + SECRET_SIZE) + MEM_ALL_BLOCK_SIZE,
           block.size - (k + SECRET_SIZE) - MEM_ALL_BLOCK_SIZE⟩ t1 t2 =
          t1 ++ ⟨block.addr + (k + SECRET_SIZE) + MEM_ALL_BLOCK_SIZE,
           block.size - (k + SECRET_SIZE) - MEM_ALL_BLOCK_SIZE⟩ :: t2 := by
        apply insert_block_no_fuse
        · intro r hrr
          have hs := hbt2 r (List.mem_of_mem_head? hrr)
          unfold fbSep fbEnd at hs
          dsimp only
          omega
        · intro pl hpl
          have hs := hcross pl (List.mem_of_getLast?_eq_some hpl) block (by simp)
          unfold fbSep fbEnd at hs
          dsimp only
          omega
      constructor
      · intro h1 he
        rw [halloc] at he
        simp [Prod.mk.injEq] at he
      · intro q h1 he
        rw [halloc] at he
        simp only [Prod.mk.injEq, Option.some.injEq] at he
        obtain ⟨hq, hh1⟩ := he
        subst hq
        subst hh1
        rw [hins1]
        have hfree := mem_free_eq
          (h :=
            { h with
              freeList := t1 ++ ⟨block.addr + (k + SECRET_SIZE) + MEM_ALL_BLOCK_SIZE,
                block.size - (k + SECRET_SIZE) - MEM_ALL_BLOCK_SIZE⟩ :: t2
              allocList := insertAB ⟨block.addr, k + SECRET_SIZE,
                guardOf h block.addr, guardOf h block.addr,
                padTo [] (k + SECRET_SIZE - SECRET_SIZE)⟩ h.allocList })
          (z := block.addr + MEM_ALL_BLOCK_SIZE)
          (b := ⟨block.addr, k + SECRET_SIZE, guardOf h block.addr,
                 guardOf h block.addr, padTo [] (k + SECRET_SIZE - SECRET_SIZE)⟩)
          hz1 (by
            show block.addr + MEM_ALL_BLOCK_SIZE + 1 < h.N
            omega)
          (by rw [hzsub]; exact findA_insertAB_self hane)
          (by rw [hzsub]; rfl) (by rw [hzsub]; rfl) hk
        rw [hfree]
        dsimp only
        simp only [hzsub]
        rw [(split_append ht1lt (by
          intro y hy
          have hy' : y = ⟨block.addr + (k + SECRET_SIZE) + MEM_ALL_BLOCK_SIZE,
              block.size - (k + SECRET_SIZE) - MEM_ALL_BLOCK_SIZE⟩ := by
            simpa using hy.symm
          subst hy'
          dsimp only
          simp
          omega)).1]
        rw [(split_append ht1lt (by
          intro y hy
          have hy' : y = ⟨block.addr + (k + SECRET_SIZE) + MEM_ALL_BLOCK_SIZE,
              block.size - (k + SECRET_SIZE) - MEM_ALL_BLOCK_SIZE⟩ := by
            simpa using hy.symm
          subst hy'
          dsimp only
          simp
          omega)).2]
        rw [insert_block_right_fuse ⟨block.addr, k + SECRET_SIZE⟩
          ⟨block.addr + (k + SECRET_SIZE) + MEM_ALL_BLOCK_SIZE,
           block.size - (k + SECRET_SIZE) - MEM_ALL_BLOCK_SIZE⟩ t1 t2
          (by dsimp only; omega)
          (by intro pl hpl; dsimp only; exact ht1last pl hpl)]
        have hsz2 : k + SECRET_SIZE + MEM_FREE_BLOCK_SIZE +
            (block.size - (k + SECRET_SIZE) - MEM_ALL_BLOCK_SIZE) = block.size := by
          omega
        rw [hsz2]
        rw [removeA_insertAB, removeA_id hane]
        rw [← hsplit]

/-! ### Concrete scenario heaps (arena of 4096 bytes) -/

/-- Extract the heap of a normal result, with a fallback. -/
def getOk {α : Type} (r : CRes α) (d : α) : α :=
  match r with
  | CRes.ok a => a
  | CRes.fatal => d
  | CRes.undef => d

/-- Three allocations of 100 bytes from a fresh 4096-byte arena at base `bse`,
then free of the middle one: free list [(124, 108), (372, 3708)], allocated
blocks at 0 and 248. -/
def heapGapAt (bse : Nat) : Heap :=
  getOk
    (mem_free
      (mem_alloc mem_first_fit
        (mem_alloc mem_first_fit
          (mem_alloc mem_first_fit (mem_init bse 4096) 100).2 100).2 100).2
      (some 140))
    (mem_init bse 4096)

/-- The heap produced by the shrinking mem_realloc of C2's failing input. -/
def heapAfterShrink : Heap :=
  (getOk (mem_realloc mem_first_fit (heapGapAt (2 ^ 16)) (some 16) 95)
    (none, mem_init 0 0)).2

/-- A heap whose single allocated block has a corrupted trailer guard. -/
def corruptHeap : Heap :=
  let h1 := (mem_alloc mem_first_fit (mem_init (2 ^ 32) 4096) 100).2
  { h1 with allocList := h1.allocList.map (fun a => { a with tguard := a.tguard + 1 }) }

/-- C1: the spec requires the free-list invariants (strictly ascending, no
duplicates, no adjacent free blocks) after every public operation, but
mem_realloc case 3.1 (shrink with a free right neighbour) writes the
replacement free header before remove_block reads the right neighbour's next
pointer.  Shrinking the 108-byte block at offset 0 to user size 95 (3 bytes of
overlap into right->next, which points at the free block at offset 372)
corrupts the free list: the model returns undef because the list then holds a
garbage pointer.  The pre-state is reachable (three allocations and one free
from a fresh arena) and well-formed. -/
theorem realloc_aliasing_clobbers_free_list :
    WF (heapGapAt (2 ^ 32)) ∧
    mem_realloc mem_first_fit (heapGapAt (2 ^ 32)) (some 16) 95 = CRes.undef := by
  decide

/-- C2: the same aliasing bug at a base address below 2^24 truncates the right
neighbour's next pointer to NULL, silently dropping the tail of the free list:
after the realloc the block footprints sum to 372 over a 4096-byte arena, so
the bytes of the dropped free block belong to no block at all. -/
theorem realloc_aliasing_breaks_sum :
    WF (heapGapAt (2 ^ 16)) ∧
    mem_realloc mem_first_fit (heapGapAt (2 ^ 16)) (some 16) 95 =
      CRes.ok (some 16, heapAfterShrink) ∧
    sumFB heapAfterShrink.freeList + sumAB heapAfterShrink.allocList = 372 ∧
    heapAfterShrink.N = 4096 := by
  decide

/-- C9: mem_alloc adds the guard to the requested size modulo 2^64 with no
overflow check, so any request of at least 2^64 - 8 wraps to a tiny effective
size, and mem_alloc(2^64 - 1) succeeds on a fresh 4096-byte arena, carving an
allocated block whose stored size is 7 bytes. -/
theorem alloc_size_wrap (s : Nat) (h1 : 2 ^ 64 - SECRET_SIZE ≤ s)
    (h2 : s < 2 ^ 64) :
    (s + SECRET_SIZE) % W64 = s + SECRET_SIZE - 2 ^ 64 ∧
    (s + SECRET_SIZE) % W64 < SECRET_SIZE ∧
    (mem_alloc mem_first_fit (mem_init (2 ^ 32) 4096) (2 ^ 64 - 1)).1 =
      some MEM_ALL_BLOCK_SIZE ∧
    (∃ b, findA (mem_alloc mem_first_fit (mem_init (2 ^ 32) 4096)
        (2 ^ 64 - 1)).2.allocList 0 = some b ∧ b.size = 7) := by
  have c1 := cs1
  have hW : W64 = 2 ^ 64 := rfl
  have hsplit : s + SECRET_SIZE = (s + SECRET_SIZE - 2 ^ 64) + 2 ^ 64 := by
    have hp : (0:Nat) < 2 ^ 64 := Nat.pos_pow_of_pos 64 (by omega)
    omega
  have key : (s + SECRET_SIZE) % W64 = s + SECRET_SIZE - 2 ^ 64 := by
    rw [hW]
    conv_lhs => rw [hsplit]
    rw [Nat.add_mod_right]
    exact Nat.mod_eq_of_lt (by omega)
  refine ⟨key, ?_, ?_, ?_⟩
  · rw [key]
    omega
  · decide
  · exact ⟨(mem_alloc mem_first_fit (mem_init (2 ^ 32) 4096)
      (2 ^ 64 - 1)).2.allocList.headD ⟨0, 0, 0, 0, []⟩, by decide, by decide⟩

/-- C9 witness at s = 2^64 - 1. -/
theorem alloc_size_wrap_witness :
    (2 ^ 64 - 1 + SECRET_SIZE) % W64 = 2 ^ 64 - 1 + SECRET_SIZE - 2 ^ 64 ∧
    (2 ^ 64 - 1 + SECRET_SIZE) % W64 < SECRET_SIZE ∧
    (mem_alloc mem_first_fit (mem_init (2 ^ 32) 4096) (2 ^ 64 - 1)).1 =
      some MEM_ALL_BLOCK_SIZE ∧
    (∃ b, findA (mem_alloc mem_first_fit (mem_init (2 ^ 32) 4096)
        (2 ^ 64 - 1)).2.allocList 0 = some b ∧ b.size = 7) :=
  alloc_size_wrap (2 ^ 64 - 1) (by decide) (by decide)

/-- No event of the inner allocated-block walk is reported free. -/
theorem showWalk_isFree_false {h : Heap} :
    ∀ fuel a t e, e ∈ showWalk h fuel a t → e.isFree = false := by
  intro fuel
  induction fuel with
  | zero =>
    intro a t e he
    simp [showWalk] at he
  | succ n ih =>
    intro a t e he
    by_cases hc : (some a = t ∨ h.N - 1 ≤ a)
    · simp only [showWalk, if_pos hc] at he
      simp at he
    · simp only [showWalk, if_neg hc] at he
      cases hfa : findA h.allocList a with
      | none =>
        rw [hfa] at he
        simp at he
      | some b =>
        rw [hfa] at he
        simp only [List.mem_cons] at he
        rcases he with rfl | hmem
        · rfl
        · exact ih _ _ _ hmem

/-- Every event of the outer loop that is reported free comes from a free-list
node, with the size argument its stored size minus SECRET_SIZE. -/
theorem showFrees_free_mem {h : Heap} :
    ∀ l e, e ∈ showFrees h l → e.isFree = true →
      ∃ f ∈ l, e = ⟨f.addr + MEM_FREE_BLOCK_SIZE, cSub f.size SECRET_SIZE, true⟩ := by
  intro l
  induction l with
  | nil =>
    intro e he _
    simp [showFrees] at he
  | cons f fl ih =>
    intro e he htrue
    simp only [showFrees, List.mem_cons, List.mem_append] at he
    rcases he with rfl | hw | hrest
    · exact ⟨f, by simp, rfl⟩
    · have := showWalk_isFree_false _ _ _ _ hw
      rw [htrue] at this
      cases this
    · obtain ⟨f2, hf2, hev⟩ := ih e hrest htrue
      exact ⟨f2, by simp [hf2], hev⟩

/-- The walk stops immediately when it reaches the target or MEM_SPACE_MAX. -/
theorem showWalk_stop {h : Heap} {fuel a : Nat} {t : Option Nat}
    (hc : some a = t ∨ h.N - 1 ≤ a) : showWalk h fuel a t = [] := by
  cases fuel with
  | zero => rfl
  | succ n => simp only [showWalk, if_pos hc]

/-- C10: mem_show reports every free block with size argument equal to its
stored size minus the 8-byte guard, although free blocks reserve no trailing
guard; in particular a freshly initialised arena of N bytes is reported as a
single free block of user size N - Hf - 8. -/
theorem show_free_minus_guard :
    (∀ (h : Heap), ∀ e ∈ mem_show h, e.isFree = true →
      ∃ f ∈ h.freeList,
        e = ⟨f.addr + MEM_FREE_BLOCK_SIZE, cSub f.size SECRET_SIZE, true⟩) ∧
    (∀ bse N, 24 ≤ N → N < W64 →
      mem_show (mem_init bse N) =
        [⟨MEM_FREE_BLOCK_SIZE, N - MEM_FREE_BLOCK_SIZE - SECRET_SIZE, true⟩]) := by
  constructor
  · intro h e he htrue
    unfold mem_show at he
    rcases List.mem_append.mp he with hw | hfr
    · have := showWalk_isFree_false _ _ _ _ hw
      rw [htrue] at this
      cases this
    · exact showFrees_free_mem _ _ hfr htrue
  · intro bse N h24 hW
    have c1 := cs1
    have c2 := cs2
    unfold mem_show mem_init
    dsimp only
    simp only [List.head?_cons, Option.map_some']
    rw [showWalk_stop (Or.inl rfl)]
    simp only [showFrees]
    have harg : 0 + MEM_FREE_BLOCK_SIZE + (N - MEM_FREE_BLOCK_SIZE) = N := by
      omega
    rw [harg, showWalk_stop (Or.inr (by dsimp only; omega))]
    have hc : cSub (N - MEM_FREE_BLOCK_SIZE) SECRET_SIZE =
        N - MEM_FREE_BLOCK_SIZE - SECRET_SIZE := cSub_eq (by omega) (by omega)
    rw [hc]
    simp

/-- C10 witness: the fresh 4096-byte arena is reported as one free block of
user size 4072 = 4096 - 16 - 8. -/
theorem show_free_minus_guard_witness :
    mem_show (mem_init (2 ^ 32) 4096) =
      [⟨MEM_FREE_BLOCK_SIZE, 4096 - MEM_FREE_BLOCK_SIZE - SECRET_SIZE, true⟩] :=
  show_free_minus_guard.2 (2 ^ 32) 4096 (by decide) (by decide)

/-- C4 counterexample: on a block whose trailer guard is corrupted,
mem_get_size returns 0 and does not assert, while mem_free does assert
fatally on the same pointer — the claim that the size query signals guard
mismatches fatally is false. -/
theorem get_size_mismatch_not_fatal :
    mem_get_size corruptHeap (some 16) = CRes.ok 0 ∧
    mem_get_size corruptHeap (some 16) ≠ CRes.fatal ∧
    mem_free corruptHeap (some 16) = CRes.fatal := by
  decide

/-- C4 (amended): on a guard mismatch the size query returns 0 with no side
effects, while free and resize assert fatally on the same pointer. -/
theorem get_size_mismatch_returns_zero (h : Heap) (z : Nat) (b : AB)
    (hz : ¬ (z < MEM_MIN_BLOCK_SIZE ∨ h.N - 1 ≤ z))
    (hfind : findA h.allocList (z - MEM_ALL_BLOCK_SIZE) = some b)
    (hmis : b.hguard ≠ guardOf h (z - MEM_ALL_BLOCK_SIZE) ∨
            b.tguard ≠ guardOf h (z - MEM_ALL_BLOCK_SIZE)) :
    mem_get_size h (some z) = CRes.ok 0 ∧
    mem_free h (some z) = CRes.fatal ∧
    (∀ s, 1 ≤ s → mem_realloc mem_first_fit h (some z) s = CRes.fatal) := by
  have hno : ¬ (b.hguard = guardOf h (z - MEM_ALL_BLOCK_SIZE) ∧
      b.tguard = guardOf h (z - MEM_ALL_BLOCK_SIZE)) := by
    tauto
  refine ⟨?_, ?_, ?_⟩
  · simp only [mem_get_size, if_neg hz, hfind]
    by_cases hh : b.hguard = guardOf h (z - MEM_ALL_BLOCK_SIZE)
    · have ht : b.tguard ≠ guardOf h (z - MEM_ALL_BLOCK_SIZE) := by tauto
      rw [if_neg (by simpa using hh), if_pos ht]
    · rw [if_pos hh]
  · simp only [mem_free, if_neg hz, hfind, if_neg hno]
  · intro s hs
    simp only [mem_realloc, if_neg hz, if_neg (by omega : ¬ s = 0), hfind,
      if_neg hno]

/-- C4 witness: the amended statement at the concrete corrupted heap. -/
theorem get_size_mismatch_returns_zero_witness :
    mem_get_size corruptHeap (some 16) = CRes.ok 0 ∧
    mem_free corruptHeap (some 16) = CRes.fatal ∧
    (∀ s, 1 ≤ s → mem_realloc mem_first_fit corruptHeap (some 16) s = CRes.fatal) :=
  get_size_mismatch_returns_zero corruptHeap 16
    (corruptHeap.allocList.headD ⟨0, 0, 0, 0, []⟩)
    (by decide) (by decide) (by decide)

theorem firstFit_ok : FitOK mem_first_fit := by
  intro l req b h
  induction l with
  | nil => cases h
  | cons x xs ih =>
    unfold mem_first_fit at h
    by_cases hc : req ≤ x.size
    · rw [if_pos hc] at h
      injection h with h
      subst h
      exact ⟨by simp, hc⟩
    · rw [if_neg hc] at h
      obtain ⟨hmem, hsz⟩ := ih h
      exact ⟨by simp [hmem], hsz⟩

/-- C5 counterexample: for the huge request 2^64 - 1 the wrapped allocation
succeeds but corrupts its own header guard (the trailer write of a 7-byte
block overlaps the guard field), so the subsequent mem_free asserts fatally
instead of restoring the heap — the claim fails for such user sizes. -/
theorem free_alloc_wrap_fatal :
    (mem_alloc mem_first_fit (mem_init (2 ^ 32) 4096) (2 ^ 64 - 1)).1 = some 16 ∧
    mem_free (mem_alloc mem_first_fit (mem_init (2 ^ 32) 4096) (2 ^ 64 - 1)).2
      (some 16) = CRes.fatal := by
  decide

/-- C5 witness: allocating 100 bytes from a fresh arena and freeing the result
returns exactly the initial heap. -/
theorem free_alloc_roundtrip_witness :
    mem_free (mem_alloc mem_first_fit (mem_init (2 ^ 32) 4096) 100).2 (some 16) =
      CRes.ok (mem_init (2 ^ 32) 4096) :=
  (free_alloc_roundtrip mem_first_fit (mem_init (2 ^ 32) 4096) 100
    (by decide) firstFit_ok (by decide)).2 16 _ (by decide)

/-! ### Best fit (C7) -/

/-- Reference recursion for the best-fit loop: the first element that fits
under the running bound and is not strictly improved upon later. -/
def bestFitRef (l : List FB) (size bs : Nat) : Option FB :=
  match l with
  | [] => none
  | x :: xs =>
    if size ≤ x.size ∧ x.size < bs then
      match bestFitRef xs size x.size with
      | some y => some y
      | none => some x
    else bestFitRef xs size bs

theorem bestFitGo_eq_ref (l : List FB) (size : Nat) :
    ∀ best bs, bestFitGo l size best bs =
      match bestFitRef l size bs with
      | some y => some y
      | none => best := by
  induction l with
  | nil => intro best bs; rfl
  | cons x xs ih =>
    intro best bs
    by_cases hc : size ≤ x.size ∧ x.size < bs
    · simp only [bestFitGo, bestFitRef, if_pos hc, ih]
      cases bestFitRef xs size x.size <;> rfl
    · simp only [bestFitGo, bestFitRef, if_neg hc, ih]

theorem bestFitRef_none (l : List FB) (size bs : Nat) :
    bestFitRef l size bs = none ↔ ∀ b ∈ l, ¬ (size ≤ b.size ∧ b.size < bs) := by
  induction l with
  | nil => simp [bestFitRef]
  | cons x xs ih =>
    by_cases hc : size ≤ x.size ∧ x.size < bs
    · simp only [bestFitRef, if_pos hc]
      constructor
      · intro h
        cases href : bestFitRef xs size x.size <;> rw [href] at h <;> cases h
      · intro h
        exact absurd hc (h x (by simp))
    · simp only [bestFitRef, if_neg hc]
      rw [ih]
      constructor
      · intro h b hb
        rcases List.mem_cons.mp hb with rfl | hbx
        · exact hc
        · exact h b hbx
      · intro h b hb
        exact h b (by simp [hb])

theorem bestFitRef_some (l : List FB) (size : Nat) :
    ∀ bs b, bestFitRef l size bs = some b →
      b ∈ l ∧ size ≤ b.size ∧ b.size < bs ∧
      (∀ c ∈ l, size ≤ c.size → c.size < bs → b.size ≤ c.size) ∧
      ∃ l1 l2, l = l1 ++ b :: l2 ∧
        ∀ c ∈ l1, size ≤ c.size → c.size < bs → b.size < c.size := by
  induction l with
  | nil => intro bs b h; cases h
  | cons x xs ih =>
    intro bs b h
    by_cases hc : size ≤ x.size ∧ x.size < bs
    · simp only [bestFitRef, if_pos hc] at h
      cases href : bestFitRef xs size x.size with
      | some y =>
        rw [href] at h
        injection h with h
        subst h
        obtain ⟨hy_mem, hy_fit, hy_lt, hy_min, l1, l2, hsplit, hfirst⟩ :=
          ih x.size y href
        refine ⟨by simp [hy_mem], hy_fit, by omega, ?_, x :: l1, l2,
          by rw [hsplit]; rfl, ?_⟩
        · intro c hc2 hfit hlt
          rcases List.mem_cons.mp hc2 with rfl | hcx
          · omega
          · by_cases hcb : c.size < x.size
            · exact hy_min c hcx hfit hcb
            · omega
        · intro c hc3 hfit hlt
          rcases List.mem_cons.mp hc3 with rfl | hcl1
          · omega
          · by_cases hcb : c.size < x.size
            · exact hfirst c hcl1 hfit hcb
            · omega
      | none =>
        rw [href] at h
        injection h with h
        subst h
        have hnone := (bestFitRef_none xs size x.size).mp href
        refine ⟨by simp, hc.1, hc.2, ?_, [], xs, rfl, by simp⟩
        intro c hc2 hfit hlt
        rcases List.mem_cons.mp hc2 with rfl | hcx
        · omega
        · have hn := hnone c hcx
          have : ¬ c.size < x.size := fun hlt2 => hn ⟨hfit, hlt2⟩
          omega
    · simp only [bestFitRef, if_neg hc] at h
      obtain ⟨hmem, hfit, hlt, hmin, l1, l2, hsplit, hfirst⟩ := ih bs b h
      refine ⟨by simp [hmem], hfit, hlt, ?_, x :: l1, l2,
        by rw [hsplit]; rfl, ?_⟩
      · intro c hc2 hf2 hl2
        rcases List.mem_cons.mp hc2 with rfl | hcx
        · exact absurd ⟨hf2, hl2⟩ hc
        · exact hmin c hcx hf2 hl2
      · intro c hc3 hf2 hl2
        rcases List.mem_cons.mp hc3 with rfl | hcl1
        · exact absurd ⟨hf2, hl2⟩ hc
        · exact hfirst c hcl1 hf2 hl2

/-- C7 counterexample: a single free block of size SIZE_MAX = 2^64 - 1 fits a
request of 8 bytes, yet mem_best_fit returns none, because its running best
size starts at SIZE_MAX and the update requires a strict improvement. -/
theorem best_fit_sizemax_miss :
    mem_best_fit [⟨0, W64 - 1⟩] SECRET_SIZE = none ∧
    SECRET_SIZE ≤ W64 - 1 := by
  constructor
  · decide
  · decide

/-- C7 (amended): on any free list whose block sizes are all below
SIZE_MAX = 2^64 - 1 (as in any real arena), mem_best_fit returns none exactly
when no block fits, and otherwise returns a fitting block of minimal size,
the first encountered among those of that size; in particular it never
returns a block smaller than the request. -/
theorem best_fit_spec (l : List FB) (req : Nat)
    (hb : ∀ b ∈ l, b.size < W64 - 1) :
    (mem_best_fit l req = none ↔ ∀ b ∈ l, b.size < req) ∧
    (∀ b, mem_best_fit l req = some b →
      b ∈ l ∧ req ≤ b.size ∧ (∀ c ∈ l, req ≤ c.size → b.size ≤ c.size) ∧
      ∃ l1 l2, l = l1 ++ b :: l2 ∧
        ∀ c ∈ l1, req ≤ c.size → b.size < c.size) := by
  unfold mem_best_fit
  rw [bestFitGo_eq_ref]
  cases href : bestFitRef l req (W64 - 1) with
  | none =>
    constructor
    · constructor
      · intro _ b hbmem
        have hn := (bestFitRef_none l req (W64 - 1)).mp href b hbmem
        have hlt := hb b hbmem
        by_cases hfit : req ≤ b.size
        · exact absurd ⟨hfit, hlt⟩ hn
        · omega
      · intro _
        rfl
    · intro b hcontra
      cases hcontra
  | some y =>
    obtain ⟨hmem, hfit, hlt, hmin, l1, l2, hsplit, hfirst⟩ :=
      bestFitRef_some l req (W64 - 1) y href
    constructor
    · constructor
      · intro hcontra
        cases hcontra
      · intro hall
        have := hall y hmem
        omega
    · intro b hsome
      have hyb : y = b := by simpa using hsome
      subst hyb
      refine ⟨hmem, hfit, ?_, l1, l2, hsplit, ?_⟩
      · intro c hcmem hcfit
        exact hmin c hcmem hcfit (by have := hb c hcmem; omega)
      · intro c hcl1 hcfit
        refine hfirst c hcl1 hcfit ?_
        have hcl : c ∈ l := by
          rw [hsplit]
          exact List.mem_append_left _ hcl1
        have := hb c hcl
        omega

/-- C7 witness: on the list [(0,50), (100,30), (200,30)] with request 20,
best fit returns the block at 100 — smallest fitting size, first encountered. -/
theorem best_fit_spec_witness :
    (mem_best_fit [⟨0, 50⟩, ⟨100, 30⟩, ⟨200, 30⟩] 20 = none ↔
      ∀ b ∈ ([⟨0, 50⟩, ⟨100, 30⟩, ⟨200, 30⟩] : List FB), b.size < 20) ∧
    (∀ b, mem_best_fit [⟨0, 50⟩, ⟨100, 30⟩, ⟨200, 30⟩] 20 = some b →
      b ∈ ([⟨0, 50⟩, ⟨100, 30⟩, ⟨200, 30⟩] : List FB) ∧ 20 ≤ b.size ∧
      (∀ c ∈ ([⟨0, 50⟩, ⟨100, 30⟩, ⟨200, 30⟩] : List FB),
        20 ≤ c.size → b.size ≤ c.size) ∧
      ∃ l1 l2, ([⟨0, 50⟩, ⟨100, 30⟩, ⟨200, 30⟩] : List FB) = l1 ++ b :: l2 ∧
        ∀ c ∈ l1, 20 ≤ c.size → b.size < c.size) :=
  best_fit_spec [⟨0, 50⟩, ⟨100, 30⟩, ⟨200, 30⟩] 20 (by decide)

/-! ### More ghost-list and heap lemmas -/

theorem findA_replaceA_self {l : List AB} {p : Nat} {nb : AB}
    (hnb : nb.addr = p) :
    findA (replaceA l p nb) p = (findA l p).map (fun _ => nb) := by
  induction l with
  | nil => rfl
  | cons x xs ih =>
    unfold replaceA
    by_cases hx : x.addr = p
    · rw [List.map_cons, if_pos hx, findA_cons_pos hnb, findA_cons_pos hx]
      rfl
    · rw [List.map_cons, if_neg hx, findA_cons_neg hx, findA_cons_neg hx]
      exact ih

theorem findA_replaceA_other {l : List AB} {pr p : Nat} {nb : AB}
    (hne : p ≠ pr) (hnb : nb.addr ≠ p) :
    findA (replaceA l pr nb) p = findA l p := by
  induction l with
  | nil => rfl
  | cons x xs ih =>
    unfold replaceA
    by_cases hx : x.addr = pr
    · rw [List.map_cons, if_pos hx, findA_cons_neg hnb,
        findA_cons_neg (by omega : x.addr ≠ p)]
      exact ih
    · rw [List.map_cons, if_neg hx]
      by_cases hxp : x.addr = p
      · rw [findA_cons_pos hxp, findA_cons_pos hxp]
      · rw [findA_cons_neg hxp, findA_cons_neg hxp]
        exact ih

theorem findA_removeA_self {l : List AB} {p : Nat} :
    findA (removeA l p) p = none := by
  induction l with
  | nil => rfl
  | cons x xs ih =>
    by_cases hx : x.addr = p
    · rw [removeA_cons_eq hx]
      exact ih
    · rw [removeA_cons_ne hx, findA_cons_neg hx]
      exact ih

theorem findA_removeA_other {l : List AB} {pr p : Nat} (hne : p ≠ pr) :
    findA (removeA l pr) p = findA l p := by
  induction l with
  | nil => rfl
  | cons x xs ih =>
    by_cases hx : x.addr = pr
    · rw [removeA_cons_eq hx, findA_cons_neg (by omega : x.addr ≠ p)]
      exact ih
    · rw [removeA_cons_ne hx]
      by_cases hxp : x.addr = p
      · rw [findA_cons_pos hxp, findA_cons_pos hxp]
      · rw [findA_cons_neg hxp, findA_cons_neg hxp]
        exact ih

theorem guardOf_congr {h1 h2 : Heap} (hb : h1.base = h2.base)
    (hs : h1.secret = h2.secret) (p : Nat) : guardOf h1 p = guardOf h2 p := by
  unfold guardOf
  rw [hb, hs]

/-- Wherever insert_block puts the incoming block, some free block of the
result covers its address. -/
theorem insert_block_covers (b : FB) (before after : List FB) :
    ∃ f ∈ insert_block b before after, f.addr ≤ b.addr ∧ b.addr < fbEnd f := by
  have c2 := cs2
  have key : ∀ (b1 : FB) (after1 : List FB), b1.addr = b.addr →
      b.addr < fbEnd b1 →
      ∃ f ∈ insert_left b1 before after1, f.addr ≤ b.addr ∧ b.addr < fbEnd f := by
    intro b1 after1 h1 h2
    cases hgl : before.getLast? with
    | none =>
      simp only [insert_left, hgl]
      exact ⟨b1, by simp, by omega, h2⟩
    | some pl =>
      simp only [insert_left, hgl]
      by_cases hfl : pl.addr + MEM_FREE_BLOCK_SIZE + pl.size = b1.addr
      · rw [if_pos hfl]
        refine ⟨⟨pl.addr, pl.size + MEM_FREE_BLOCK_SIZE + b1.size⟩, by simp,
          ?_, ?_⟩
        · dsimp only
          omega
        · unfold fbEnd at *
          dsimp only
          omega
      · rw [if_neg hfl]
        exact ⟨b1, by simp, by omega, h2⟩
  cases after with
  | nil =>
    have hstep : insert_block b before [] = insert_left b before [] := rfl
    rw [hstep]
    refine key b [] rfl ?_
    unfold fbEnd
    omega
  | cons r rest =>
    by_cases hf : b.addr + b.size + MEM_FREE_BLOCK_SIZE = r.addr
    · have hstep : insert_block b before (r :: rest) =
          insert_left ⟨b.addr, b.size + MEM_FREE_BLOCK_SIZE + r.size⟩ before
            rest := by
        simp only [insert_block, insert_right, if_pos hf]
      rw [hstep]
      refine key _ _ rfl ?_
      unfold fbEnd
      dsimp only
      omega
    · have hstep : insert_block b before (r :: rest) =
          insert_left b before (r :: rest) := by
        simp only [insert_block, insert_right, if_neg hf]
      rw [hstep]
      refine key b _ rfl ?_
      unfold fbEnd
      omega

/-- The claimed condition of realloc case 4.1: the physical right neighbour of
the block at `p` (stored size `psize`) is not free, or is free but too small
to grow in place to effective size `e`. -/
def growMustRelocate (h : Heap) (p psize e : Nat) : Bool :=
  match (h.freeList.dropWhile
      (fun f => f.addr < p + psize + MEM_ALL_BLOCK_SIZE)).head? with
  | none => true
  | some r => decide (r.addr ≠ p + psize + MEM_ALL_BLOCK_SIZE) ||
      decide (cAdd r.size MEM_FREE_BLOCK_SIZE < cSub e psize)

/-- Dispatch of mem_realloc into case 4.1. -/
theorem mem_realloc_eq_grow_reloc {fit : List FB → Nat → Option FB} {h : Heap}
    {z s : Nat} {b : AB}
    (hz : ¬ (z < MEM_MIN_BLOCK_SIZE ∨ h.N - 1 ≤ z)) (hs : s ≠ 0)
    (hsw : s + SECRET_SIZE < W64)
    (hfind : findA h.allocList (z - MEM_ALL_BLOCK_SIZE) = some b)
    (hg : b.hguard = guardOf h (z - MEM_ALL_BLOCK_SIZE) ∧
          b.tguard = guardOf h (z - MEM_ALL_BLOCK_SIZE))
    (hgrow : b.size < s + SECRET_SIZE)
    (hcase : growMustRelocate h (z - MEM_ALL_BLOCK_SIZE) b.size
      (s + SECRET_SIZE) = true) :
    mem_realloc fit h (some z) s =
      realloc_grow_reloc_case fit h b (z - MEM_ALL_BLOCK_SIZE)
        (s + SECRET_SIZE) := by
  have hsz : (s + SECRET_SIZE) % W64 = s + SECRET_SIZE := mod64_eq hsw
  simp only [mem_realloc, if_neg hz, if_neg hs, hfind, if_pos hg, hsz,
    search_block]
  rw [if_neg (by omega : ¬ s + SECRET_SIZE = b.size),
    if_neg (by omega : ¬ s + SECRET_SIZE < b.size)]
  unfold growMustRelocate at hcase
  cases hd : (h.freeList.dropWhile
      (fun f => f.addr < z - MEM_ALL_BLOCK_SIZE + b.size + MEM_ALL_BLOCK_SIZE)) with
  | nil => rfl
  | cons r rest =>
    rw [hd] at hcase
    simp only [List.head?_cons] at hcase
    dsimp only
    simp only [Bool.or_eq_true, decide_eq_true_eq] at hcase
    have hneg : ¬ (r.addr = z - MEM_ALL_BLOCK_SIZE + b.size + MEM_ALL_BLOCK_SIZE ∧
        ¬ (cAdd r.size MEM_FREE_BLOCK_SIZE < cSub (s + SECRET_SIZE) b.size)) := by
      intro hcon
      rcases hcase with hc1 | hc2
      · exact hc1 hcon.1
      · exact hcon.2 hc2
    rw [if_neg hneg]

/-- Facts about a successful mem_alloc on a well-formed heap: the result is a
fresh allocated header carved from a free block, with intact guards, stored
size at least the guarded request, and all other allocated headers preserved. -/
theorem mem_alloc_some_facts {fit : List FB → Nat → Option FB} {h : Heap}
    {s : Nat} {q : Nat} {h1 : Heap} (hwf : WF h) (hfit : FitOK fit)
    (hsw : s + SECRET_SIZE < W64)
    (halloc : mem_alloc fit h s = (some q, h1)) :
    ∃ block : FB, block ∈ h.freeList ∧ q = block.addr + MEM_ALL_BLOCK_SIZE ∧
      h1.N = h.N ∧ h1.base = h.base ∧ h1.secret = h.secret ∧
      ∃ ab : AB, findA h1.allocList (q - MEM_ALL_BLOCK_SIZE) = some ab ∧
        ab.addr = block.addr ∧ s + SECRET_SIZE ≤ ab.size ∧
        abEnd ab ≤ h.N ∧
        ab.hguard = guardOf h block.addr ∧ ab.tguard = guardOf h block.addr ∧
        (∀ p2, p2 ≠ block.addr →
          findA h1.allocList p2 = findA h.allocList p2) := by
  have hsz : (s + SECRET_SIZE) % W64 = s + SECRET_SIZE := mod64_eq hsw
  cases hf : fit h.freeList ((s + SECRET_SIZE) % W64 + MEM_FREE_ALL_DIFF) with
  | none =>
    simp only [mem_alloc, hf] at halloc
    exact absurd (Prod.mk.injEq .. ▸ halloc).1 (by simp)
  | some block =>
    obtain ⟨hmemb, hreq0⟩ := hfit _ _ _ hf
    have hreq : s + SECRET_SIZE ≤ block.size := by
      rw [hsz] at hreq0
      simpa [MEM_FREE_ALL_DIFF] using hreq0
    obtain ⟨hbend, hbmin, hbsW, hane⟩ := alloc_block_facts hwf hmemb
    have hfch := hwf.2.2.1
    obtain ⟨t1, t2, hsplit, htake, hdrop⟩ := sorted_split hfch hmemb
    have hzsub : block.addr + MEM_ALL_BLOCK_SIZE - MEM_ALL_BLOCK_SIZE =
        block.addr := by omega
    by_cases hcond : block.size - (s + SECRET_SIZE) ≤
        MEM_MAX_BLOCK_SIZE + SECRET_SIZE
    · rw [mem_alloc_eq_nosplit hf hsw hbsW hreq htake hdrop hcond] at halloc
      simp only [Prod.mk.injEq, Option.some.injEq] at halloc
      obtain ⟨hq, hh1⟩ := halloc
      subst hq
      subst hh1
      refine ⟨block, hmemb, rfl, rfl, rfl, rfl,
        ⟨block.addr, block.size, guardOf h block.addr, guardOf h block.addr,
         padTo [] (block.size - SECRET_SIZE)⟩, ?_, rfl, hreq, ?_, rfl, rfl, ?_⟩
      · rw [hzsub]
        exact findA_insertAB_self hane
      · unfold abEnd fbEnd at *
        dsimp only
        have c2 := cs2
        have c3 := cs3
        omega
      · intro p2 hp2
        exact findA_insertAB_other (by dsimp only; omega)
    · rw [mem_alloc_eq_split hf hsw hbsW hreq htake hdrop hcond] at halloc
      simp only [Prod.mk.injEq, Option.some.injEq] at halloc
      obtain ⟨hq, hh1⟩ := halloc
      subst hq
      subst hh1
      refine ⟨block, hmemb, rfl, rfl, rfl, rfl,
        ⟨block.addr, s + SECRET_SIZE, guardOf h block.addr, guardOf h block.addr,
         padTo [] (s + SECRET_SIZE - SECRET_SIZE)⟩, ?_, rfl, le_refl _, ?_, rfl,
        rfl, ?_⟩
      · rw [hzsub]
        exact findA_insertAB_self hane
      · unfold abEnd fbEnd at *
        dsimp only
        have c2 := cs2
        have c3 := cs3
        omega
      · intro p2 hp2
        exact findA_insertAB_other (by dsimp only; omega)

/-- C6: when mem_realloc must grow a block whose right neighbour is not free
(or is free but too small), it allocates a fresh block of user size s, copies
the old payload into it, frees the old block and returns the new payload
address; when that allocation fails it returns NULL and leaves the heap
unchanged. -/
theorem realloc_grow_relocates (fit : List FB → Nat → Option FB) (h : Heap)
    (z s : Nat) (b : AB) (hwf : WF h) (hfit : FitOK fit)
    (hfind : findA h.allocList (z - MEM_ALL_BLOCK_SIZE) = some b)
    (hz16 : MEM_MIN_BLOCK_SIZE ≤ z)
    (hs : 1 ≤ s) (hsw : s + SECRET_SIZE < W64)
    (hgrow : b.size < s + SECRET_SIZE)
    (hcase : growMustRelocate h (z - MEM_ALL_BLOCK_SIZE) b.size
      (s + SECRET_SIZE) = true) :
    ((mem_alloc fit h s).1 = none →
      mem_realloc fit h (some z) s = CRes.ok (none, h)) ∧
    (∀ q h1, mem_alloc fit h s = (some q, h1) →
      ∃ h2 nb, mem_realloc fit h (some z) s = CRes.ok (some q, h2) ∧
        findA h2.allocList (q - MEM_ALL_BLOCK_SIZE) = some nb ∧
        nb.data.take (b.size - SECRET_SIZE) = b.data ∧
        b.size - SECRET_SIZE ≤ s ∧
        findA h2.allocList (z - MEM_ALL_BLOCK_SIZE) = none ∧
        ∃ f ∈ h2.freeList, f.addr ≤ z - MEM_ALL_BLOCK_SIZE ∧
          z - MEM_ALL_BLOCK_SIZE < fbEnd f) := by
  have c1 := cs1
  have c2 := cs2
  have c3 := cs3
  have c5 := cs5
  obtain ⟨hbmem, hbaddr⟩ := findA_mem hfind
  obtain ⟨hN, hbase, hfch, hach, hfar, hdisj, hsum, hal⟩ := id hwf
  have hbend : abEnd b ≤ h.N := (hal b hbmem).1
  have hbmin : SECRET_SIZE ≤ b.size := (hal b hbmem).2.1
  have hg1 : b.hguard = guardOf h (z - MEM_ALL_BLOCK_SIZE) := by
    rw [← hbaddr]
    exact (hal b hbmem).2.2.1
  have hg2 : b.tguard = guardOf h (z - MEM_ALL_BLOCK_SIZE) := by
    rw [← hbaddr]
    exact (hal b hbmem).2.2.2.1
  have hbend2 : z - MEM_ALL_BLOCK_SIZE + MEM_ALL_BLOCK_SIZE + b.size ≤ h.N := by
    unfold abEnd at hbend
    omega
  have hz : ¬ (z < MEM_MIN_BLOCK_SIZE ∨ h.N - 1 ≤ z) := by omega
  have hbW : b.size < W64 := by omega
  have hdisp := @mem_realloc_eq_grow_reloc fit h z s b hz (by omega) hsw hfind
    ⟨hg1, hg2⟩ hgrow hcase
  rw [hdisp]
  unfold realloc_grow_reloc_case
  have hcs : cSub (s + SECRET_SIZE) SECRET_SIZE = s := by
    rw [cSub_eq (by omega) hsw]
    omega
  rw [hcs]
  constructor
  · intro hnone
    cases halloc : mem_alloc fit h s with
    | mk r hh =>
      rw [halloc] at hnone
      dsimp only at hnone
      subst hnone
      rfl
  · intro q h1 halloc
    rw [halloc]
    dsimp only
    rw [if_neg (by omega : ¬ b.size < SECRET_SIZE)]
    obtain ⟨block, hblockmem, hq, hN1, hbase1, hsec1, ab, habfind, habaddr,
      habsz, habend, habhg, habtg, hpres⟩ :=
      mem_alloc_some_facts hwf hfit hsw halloc
    have hqsub : q - MEM_ALL_BLOCK_SIZE = block.addr := by omega
    have hne : z - MEM_ALL_BLOCK_SIZE ≠ block.addr := by
      have hd := hdisj block hblockmem b hbmem
      unfold fbEnd abEnd at hd
      rcases hd with hd | hd <;> omega
    rw [habfind]
    dsimp only
    have hlen : b.data.length = b.size - SECRET_SIZE := (hal b hbmem).2.2.2.2
    have hL : cSub b.size SECRET_SIZE = b.size - SECRET_SIZE :=
      cSub_eq (by omega) hbW
    rw [hL]
    have hzz : z - MEM_ALL_BLOCK_SIZE + MEM_ALL_BLOCK_SIZE = z := by omega
    rw [hzz]
    set nb2 : AB :=
      { ab with
        data :=
          b.data.take (b.size - SECRET_SIZE) ++
            ab.data.drop (b.size - SECRET_SIZE) } with hnb2
    have haddr2 : nb2.addr = q - MEM_ALL_BLOCK_SIZE := by
      rw [hnb2]
      show ab.addr = q - MEM_ALL_BLOCK_SIZE
      omega
    have hfq : findA (replaceA h1.allocList (q - MEM_ALL_BLOCK_SIZE) nb2)
        (z - MEM_ALL_BLOCK_SIZE) = some b := by
      rw [findA_replaceA_other (by omega) (by omega)]
      rw [hpres _ hne]
      exact hfind
    have hfree := mem_free_eq
      (h := { h1 with allocList := replaceA h1.allocList (q - MEM_ALL_BLOCK_SIZE) nb2 })
      (z := z) (b := b) hz16
      (by show z + 1 < h1.N; omega)
      hfq
      (by rw [hg1]; exact guardOf_congr hbase1.symm hsec1.symm _)
      (by rw [hg2]; exact guardOf_congr hbase1.symm hsec1.symm _)
      hbW
    rw [hfree]
    refine ⟨_, nb2, rfl, ?_, ?_, by omega, ?_, ?_⟩
    · dsimp only
      have e1 : q - MEM_ALL_BLOCK_SIZE ≠ z - MEM_ALL_BLOCK_SIZE := by omega
      rw [findA_removeA_other e1, findA_replaceA_self haddr2, habfind]
      rfl
    · rw [hnb2]
      dsimp only
      have ht : b.data.take (b.size - SECRET_SIZE) = b.data := by
        rw [← hlen]
        exact List.take_length b.data
      rw [ht]
      exact List.take_left' hlen
    · dsimp only
      exact findA_removeA_self
    · dsimp only
      simpa using insert_block_covers ⟨z - MEM_ALL_BLOCK_SIZE, b.size⟩ _ _

/-- Two allocations of 100 bytes from a fresh 4096-byte arena at base 2^32:
allocated blocks at offsets 0 and 124, free remainder at 248. -/
def twoAllocHeap : Heap :=
  (mem_alloc mem_first_fit
    (mem_alloc mem_first_fit (mem_init (2 ^ 32) 4096) 100).2 100).2

/-- The allocated block whose payload starts at offset 16 in `twoAllocHeap`. -/
def oldBlockW : AB :=
  (findA twoAllocHeap.allocList 0).getD ⟨0, 0, 0, 0, []⟩

theorem realloc_grow_relocates_witness :
    WF twoAllocHeap ∧
    (∃ h2 nb,
      mem_realloc mem_first_fit twoAllocHeap (some 16) 200 =
        CRes.ok (some 264, h2) ∧
      findA h2.allocList (264 - MEM_ALL_BLOCK_SIZE) = some nb ∧
      nb.data.take (oldBlockW.size - SECRET_SIZE) = oldBlockW.data ∧
      oldBlockW.size - SECRET_SIZE ≤ 200 ∧
      findA h2.allocList (16 - MEM_ALL_BLOCK_SIZE) = none ∧
      ∃ f ∈ h2.freeList, f.addr ≤ 16 - MEM_ALL_BLOCK_SIZE ∧
        16 - MEM_ALL_BLOCK_SIZE < fbEnd f) :=
  ⟨by decide,
    (realloc_grow_relocates mem_first_fit twoAllocHeap 16 200 oldBlockW
      (by decide) firstFit_ok (by decide) (by decide) (by decide) (by decide)
      (by decide) (by decide)).2 264
      (mem_alloc mem_first_fit twoAllocHeap 200).2 (by decide)⟩

/-- Consecutive (start, length) tiles: each starts exactly at the cursor and
the last ends exactly at the bound. -/
def tilesSpans : List (Nat × Nat) → Nat → Nat → Bool
  | [], a, b => a == b
  | (s, l) :: ts, a, b => s == a && tilesSpans ts (a + l) b

/-- The (block_start, whole_footprint) tile of a reported event: payload minus
the header, user size plus guard plus header. -/
def evTile (e : Ev) : Nat × Nat :=
  (e.pay - MEM_FREE_BLOCK_SIZE, e.usize + SECRET_SIZE + MEM_FREE_BLOCK_SIZE)

/-- The ascending merge of the free and allocated lists, with the event each
block should produce: the specification-side reading of mem_show. -/
def traceSpec : List FB → List AB → List Ev
  | [], [] => []
  | f :: fl, [] =>
    ⟨f.addr + MEM_FREE_BLOCK_SIZE, f.size - SECRET_SIZE, true⟩ :: traceSpec fl []
  | [], b :: al =>
    ⟨b.addr + MEM_ALL_BLOCK_SIZE, b.size - SECRET_SIZE, false⟩ :: traceSpec [] al
  | f :: fl, b :: al =>
    if b.addr < f.addr then
      ⟨b.addr + MEM_ALL_BLOCK_SIZE, b.size - SECRET_SIZE, false⟩ ::
        traceSpec (f :: fl) al
    else
      ⟨f.addr + MEM_FREE_BLOCK_SIZE, f.size - SECRET_SIZE, true⟩ ::
        traceSpec fl (b :: al)
termination_by fl al => fl.length + al.length

/-- Separation order on allocated headers, mirroring fbSep. -/
def abSep (a b : AB) : Prop := abEnd a ≤ b.addr

theorem abSep_trans : ∀ {a b c : AB}, abSep a b → abSep b c → abSep a c := by
  intro a b c h1 h2
  unfold abSep abEnd at *
  omega

theorem achain_pairwise {l : List AB} (h : l.Chain' abSep) : l.Pairwise abSep := by
  haveI : IsTrans AB abSep := ⟨fun _ _ _ => abSep_trans⟩
  exact List.chain'_iff_pairwise.mp h

/-- In an address-sorted allocated list the search by address finds each
member. -/
theorem findA_self {l : List AB} (hch : l.Chain' abSep) {b : AB} (hb : b ∈ l) :
    findA l b.addr = some b := by
  induction l with
  | nil => cases hb
  | cons x xs ih =>
    rcases List.mem_cons.mp hb with hx | hx
    · rw [hx]
      exact findA_cons_pos rfl
    · have hp := achain_pairwise hch
      have hsep : abSep x b := (List.pairwise_cons.mp hp).1 b hx
      have hne : x.addr ≠ b.addr := by
        have c3 := cs3
        unfold abSep abEnd at hsep
        omega
      rw [findA_cons_neg hne]
      exact ih hch.tail hx

theorem sumFB_cons {f : FB} {l : List FB} :
    sumFB (f :: l) = MEM_FREE_BLOCK_SIZE + f.size + sumFB l := by
  unfold sumFB
  rw [List.map_cons, List.sum_cons]

theorem sumAB_cons {b : AB} {l : List AB} :
    sumAB (b :: l) = MEM_ALL_BLOCK_SIZE + b.size + sumAB l := by
  unfold sumAB
  rw [List.map_cons, List.sum_cons]

theorem sumAB_lb : ∀ (l : List AB), l.length * 16 ≤ sumAB l := by
  intro l
  induction l with
  | nil => simp [sumAB]
  | cons x xs ih =>
    have c3 := cs3
    rw [sumAB_cons, List.length_cons]
    omega

/-- Disjoint sorted blocks inside [a, N) have total footprint at most N - a. -/
theorem packSum_le {N : Nat} : ∀ (n : Nat) (fl : List FB) (al : List AB) (a : Nat),
    fl.length + al.length ≤ n →
    fl.Chain' fbSep → al.Chain' abSep →
    (∀ f ∈ fl, a ≤ f.addr ∧ fbEnd f ≤ N) →
    (∀ b ∈ al, a ≤ b.addr ∧ abEnd b ≤ N) →
    (∀ f ∈ fl, ∀ b ∈ al, fbEnd f ≤ b.addr ∨ abEnd b ≤ f.addr) →
    a ≤ N →
    sumFB fl + sumAB al ≤ N - a := by
  have c2 := cs2
  have c3 := cs3
  intro n
  induction n with
  | zero =>
    intro fl al a hlen hfch hach hfin hain hdisj haN
    have h1 : fl = [] := List.length_eq_zero.mp (by omega)
    have h2 : al = [] := List.length_eq_zero.mp (by omega)
    subst h1
    subst h2
    have e1 : sumFB ([] : List FB) = 0 := rfl
    have e2 : sumAB ([] : List AB) = 0 := rfl
    omega
  | succ n ih =>
    intro fl al a hlen hfch hach hfin hain hdisj haN
    rcases fl with _ | ⟨f, fl2⟩
    · rcases al with _ | ⟨b, al2⟩
      · have e1 : sumFB ([] : List FB) = 0 := rfl
        have e2 : sumAB ([] : List AB) = 0 := rfl
        omega
      · have hb := hain b (by simp)
        have hbend : abEnd b ≤ N := hb.2
        have hpa := achain_pairwise hach
        have harest : ∀ b2 ∈ al2, abSep b b2 := (List.pairwise_cons.mp hpa).1
        have hih := ih [] al2 (abEnd b)
          (by simp only [List.length_nil, List.length_cons] at hlen ⊢; omega)
          List.chain'_nil hach.tail
          (by intro f0 hf0; cases hf0)
          (by
            intro b2 hb2
            exact ⟨harest b2 hb2, (hain b2 (List.mem_cons_of_mem b hb2)).2⟩)
          (by intro f0 hf0 b0 hb0; cases hf0)
          hbend
        rw [sumAB_cons]
        unfold abEnd at hih hbend
        omega
    · rcases al with _ | ⟨b, al2⟩
      · have hf := hfin f (by simp)
        have hfend : fbEnd f ≤ N := hf.2
        have hpf := chain_pairwise hfch
        have hfrest : ∀ f2 ∈ fl2, fbSep f f2 := (List.pairwise_cons.mp hpf).1
        have hih := ih fl2 [] (fbEnd f)
          (by simp only [List.length_nil, List.length_cons] at hlen ⊢; omega)
          hfch.tail List.chain'_nil
          (by
            intro f2 hf2
            have hs := hfrest f2 hf2
            unfold fbSep at hs
            exact ⟨by omega, (hfin f2 (List.mem_cons_of_mem f hf2)).2⟩)
          (by intro b0 hb0; cases hb0)
          (by intro f0 hf0 b0 hb0; cases hb0)
          hfend
        rw [sumFB_cons]
        unfold fbEnd at hih hfend
        omega
      · by_cases hcmp : b.addr < f.addr
        · have hb := hain b (by simp)
          have hbend : abEnd b ≤ N := hb.2
          have habf : abEnd b ≤ f.addr := by
            rcases hdisj f (by simp) b (by simp) with hd | hd
            · unfold fbEnd at hd
              omega
            · exact hd
          have hpf := chain_pairwise hfch
          have hfrest : ∀ f2 ∈ fl2, fbSep f f2 := (List.pairwise_cons.mp hpf).1
          have hpa := achain_pairwise hach
          have harest : ∀ b2 ∈ al2, abSep b b2 := (List.pairwise_cons.mp hpa).1
          have hih := ih (f :: fl2) al2 (abEnd b)
            (by simp only [List.length_cons] at hlen ⊢; omega)
            hfch hach.tail
            (by
              intro f2 hf2
              refine ⟨?_, (hfin f2 hf2).2⟩
              rcases List.mem_cons.mp hf2 with rfl | hf3
              · exact habf
              · have hs := hfrest f2 hf3
                unfold fbSep fbEnd at hs
                omega)
            (by
              intro b2 hb2
              exact ⟨harest b2 hb2, (hain b2 (List.mem_cons_of_mem b hb2)).2⟩)
            (by
              intro f2 hf2 b2 hb2
              exact hdisj f2 hf2 b2 (List.mem_cons_of_mem b hb2))
            hbend
          rw [sumAB_cons]
          unfold abEnd at hih hbend
          omega
        · have hf := hfin f (by simp)
          have hfend : fbEnd f ≤ N := hf.2
          have hfb2 : fbEnd f ≤ b.addr := by
            rcases hdisj f (by simp) b (by simp) with hd | hd
            · exact hd
            · unfold abEnd at hd
              omega
          have hpf := chain_pairwise hfch
          have hfrest : ∀ f2 ∈ fl2, fbSep f f2 := (List.pairwise_cons.mp hpf).1
          have hpa := achain_pairwise hach
          have harest : ∀ b2 ∈ al2, abSep b b2 := (List.pairwise_cons.mp hpa).1
          have hih := ih fl2 (b :: al2) (fbEnd f)
            (by simp only [List.length_cons] at hlen ⊢; omega)
            hfch.tail hach
            (by
              intro f2 hf2
              have hs := hfrest f2 hf2
              unfold fbSep at hs
              exact ⟨by omega, (hfin f2 (List.mem_cons_of_mem f hf2)).2⟩)
            (by
              intro b2 hb2
              refine ⟨?_, (hain b2 hb2).2⟩
              rcases List.mem_cons.mp hb2 with rfl | hb3
              · exact hfb2
              · have hs := harest b2 hb3
                unfold abSep abEnd at hs
                omega)
            (by
              intro f2 hf2 b2 hb2
              exact hdisj f2 (List.mem_cons_of_mem f hf2) b2 hb2)
            hfend
          rw [sumFB_cons]
          unfold fbEnd at hih hfend
          omega

/-- The walk/report loops of mem_show, on any well-separated exact cover of
[a, h.N) by the blocks of fl and al, produce exactly the ascending merge
traceSpec fl al, whose tiles span [a, h.N). -/
theorem show_master (h : Heap) (hNW : h.N < W64) :
    ∀ (n : Nat) (fl : List FB) (al : List AB) (a : Nat),
    fl.length + al.length ≤ n →
    fl.Chain' fbSep → al.Chain' abSep →
    (∀ f ∈ fl, a ≤ f.addr ∧ fbEnd f ≤ h.N ∧ SECRET_SIZE ≤ f.size) →
    (∀ b ∈ al, a ≤ b.addr ∧ abEnd b ≤ h.N ∧ SECRET_SIZE ≤ b.size) →
    (∀ f ∈ fl, ∀ b ∈ al, fbEnd f ≤ b.addr ∨ abEnd b ≤ f.addr) →
    (∀ b ∈ al, findA h.allocList b.addr = some b) →
    sumFB fl + sumAB al = h.N - a →
    a ≤ h.N →
    (∀ fuel, (al.length < fuel ∨ al = []) →
      showWalk h fuel a (fl.head?.map FB.addr) ++ showFrees h fl =
        traceSpec fl al) ∧
    tilesSpans ((traceSpec fl al).map evTile) a h.N = true := by
  have c1 := cs1
  have c2 := cs2
  have c3 := cs3
  intro n
  induction n with
  | zero =>
    intro fl al a hlen hfch hach hfin hain hdisj hfind hsum haN
    have h1 : fl = [] := List.length_eq_zero.mp (by omega)
    have h2 : al = [] := List.length_eq_zero.mp (by omega)
    subst h1
    subst h2
    have e1 : sumFB ([] : List FB) = 0 := rfl
    have e2 : sumAB ([] : List AB) = 0 := rfl
    have haeq : a = h.N := by omega
    constructor
    · intro fuel _
      rw [showWalk_stop (Or.inr (by omega))]
      simp [showFrees, traceSpec]
    · simp [traceSpec, tilesSpans, haeq]
  | succ n ih =>
    intro fl al a hlen hfch hach hfin hain hdisj hfind hsum haN
    rcases fl with _ | ⟨f, fl2⟩
    · rcases al with _ | ⟨b, al2⟩
      · have e1 : sumFB ([] : List FB) = 0 := rfl
        have e2 : sumAB ([] : List AB) = 0 := rfl
        have haeq : a = h.N := by omega
        constructor
        · intro fuel _
          rw [showWalk_stop (Or.inr (by omega))]
          simp [showFrees, traceSpec]
        · simp [traceSpec, tilesSpans, haeq]
      · -- allocated head, no free blocks left
        have hb := hain b (by simp)
        have hbend : abEnd b ≤ h.N := hb.2.1
        have hbsz : SECRET_SIZE ≤ b.size := hb.2.2
        have hpa := achain_pairwise hach
        have harest : ∀ b2 ∈ al2, abSep b b2 := (List.pairwise_cons.mp hpa).1
        have hain2 : ∀ b2 ∈ al2, abEnd b ≤ b2.addr ∧ abEnd b2 ≤ h.N ∧
            SECRET_SIZE ≤ b2.size := by
          intro b2 hb2
          have h3 := hain b2 (List.mem_cons_of_mem b hb2)
          exact ⟨harest b2 hb2, h3.2.1, h3.2.2⟩
        have hpack := packSum_le (N := h.N) n [] al2 (abEnd b)
          (by simp only [List.length_nil, List.length_cons] at hlen ⊢; omega)
          List.chain'_nil hach.tail
          (by intro f0 hf0; cases hf0)
          (by intro b2 hb2; exact ⟨(hain2 b2 hb2).1, (hain2 b2 hb2).2.1⟩)
          (by intro f0 hf0 b0 hb0; cases hf0)
          hbend
        have haeq : b.addr = a := by
          rw [sumAB_cons] at hsum
          unfold abEnd at hpack hbend
          omega
        have hsum2 : sumFB [] + sumAB al2 = h.N - abEnd b := by
          rw [sumAB_cons] at hsum
          unfold abEnd at hbend ⊢
          omega
        have hfind2 : ∀ b2 ∈ al2, findA h.allocList b2.addr = some b2 :=
          fun b2 hb2 => hfind b2 (List.mem_cons_of_mem b hb2)
        have hih := ih [] al2 (abEnd b)
          (by simp only [List.length_nil, List.length_cons] at hlen ⊢; omega)
          List.chain'_nil hach.tail
          (by intro f0 hf0; cases hf0)
          hain2
          (by intro f0 hf0 b0 hb0; cases hf0)
          hfind2 hsum2 hbend
        have hbW : b.size < W64 := by
          unfold abEnd at hbend
          omega
        have hcsb : cSub b.size SECRET_SIZE = b.size - SECRET_SIZE :=
          cSub_eq hbsz hbW
        constructor
        · intro fuel hfuel
          have hfuel2 : (b :: al2).length < fuel := by
            rcases hfuel with hfuel | hfuel
            · exact hfuel
            · simp at hfuel
          cases fuel with
          | zero => exact absurd hfuel2 (by omega)
          | succ m =>
            simp only [showWalk]
            have hnc : ¬ (some a = (([] : List FB).head?.map FB.addr) ∨
                h.N - 1 ≤ a) := by
              simp only [List.head?_nil, Option.map_none']
              have hbe := hbend
              unfold abEnd at hbe
              rintro (hx | hx)
              · simp at hx
              · omega
            rw [if_neg hnc]
            have hfa : findA h.allocList a = some b := by
              rw [← haeq]
              exact hfind b (by simp)
            rw [hfa]
            dsimp only
            rw [List.cons_append]
            have hw := hih.1 m (Or.inl (by
              simp only [List.length_cons] at hfuel2
              omega))
            unfold abEnd at hw
            rw [haeq] at hw
            rw [hw]
            rw [hcsb]
            simp only [traceSpec]
            rw [haeq]
        · simp only [traceSpec, List.map_cons, evTile, tilesSpans,
            Bool.and_eq_true, beq_iff_eq]
          refine ⟨by omega, ?_⟩
          rw [show a + (b.size - SECRET_SIZE + SECRET_SIZE +
              MEM_FREE_BLOCK_SIZE) = abEnd b from by unfold abEnd; omega]
          exact hih.2
    · rcases al with _ | ⟨b, al2⟩
      · -- free head, no allocated blocks left
        have hf := hfin f (by simp)
        have hfend : fbEnd f ≤ h.N := hf.2.1
        have hfsz : SECRET_SIZE ≤ f.size := hf.2.2
        have hpf := chain_pairwise hfch
        have hfrest : ∀ f2 ∈ fl2, fbSep f f2 := (List.pairwise_cons.mp hpf).1
        have hfin2 : ∀ f2 ∈ fl2, fbEnd f ≤ f2.addr ∧ fbEnd f2 ≤ h.N ∧
            SECRET_SIZE ≤ f2.size := by
          intro f2 hf2
          have h3 := hfin f2 (List.mem_cons_of_mem f hf2)
          have hs := hfrest f2 hf2
          unfold fbSep at hs
          exact ⟨by omega, h3.2.1, h3.2.2⟩
        have hpack := packSum_le (N := h.N) n fl2 [] (fbEnd f)
          (by simp only [List.length_nil, List.length_cons] at hlen ⊢; omega)
          hfch.tail List.chain'_nil
          (by intro f2 hf2; exact ⟨(hfin2 f2 hf2).1, (hfin2 f2 hf2).2.1⟩)
          (by intro b0 hb0; cases hb0)
          (by intro f0 hf0 b0 hb0; cases hb0)
          hfend
        have haeq : f.addr = a := by
          rw [sumFB_cons] at hsum
          unfold fbEnd at hpack hfend
          omega
        have hsum2 : sumFB fl2 + sumAB [] = h.N - fbEnd f := by
          rw [sumFB_cons] at hsum
          unfold fbEnd at hfend ⊢
          omega
        have hih := ih fl2 [] (fbEnd f)
          (by simp only [List.length_nil, List.length_cons] at hlen ⊢; omega)
          hfch.tail List.chain'_nil hfin2
          (by intro b0 hb0; cases hb0)
          (by intro f0 hf0 b0 hb0; cases hb0)
          (by intro b0 hb0; cases hb0)
          hsum2 hfend
        have hfW : f.size < W64 := by
          unfold fbEnd at hfend
          omega
        have hcsf : cSub f.size SECRET_SIZE = f.size - SECRET_SIZE :=
          cSub_eq hfsz hfW
        constructor
        · intro fuel _
          rw [showWalk_stop (Or.inl (by
            simp only [List.head?_cons, Option.map_some']
            rw [haeq]))]
          simp only [List.nil_append, showFrees]
          have hw := hih.1 h.N (Or.inr rfl)
          unfold fbEnd at hw
          rw [hw]
          rw [hcsf]
          simp only [traceSpec]
        · simp only [traceSpec, List.map_cons, evTile, tilesSpans,
            Bool.and_eq_true, beq_iff_eq]
          refine ⟨by omega, ?_⟩
          rw [show a + (f.size - SECRET_SIZE + SECRET_SIZE +
              MEM_FREE_BLOCK_SIZE) = fbEnd f from by unfold fbEnd; omega]
          exact hih.2
      · by_cases hcmp : b.addr < f.addr
        · -- allocated head before the next free block
          have hb := hain b (by simp)
          have hbend : abEnd b ≤ h.N := hb.2.1
          have hbsz : SECRET_SIZE ≤ b.size := hb.2.2
          have habf : abEnd b ≤ f.addr := by
            rcases hdisj f (by simp) b (by simp) with hd | hd
            · unfold fbEnd at hd
              omega
            · exact hd
          have hpf := chain_pairwise hfch
          have hfrest : ∀ f2 ∈ fl2, fbSep f f2 := (List.pairwise_cons.mp hpf).1
          have hpa := achain_pairwise hach
          have harest : ∀ b2 ∈ al2, abSep b b2 := (List.pairwise_cons.mp hpa).1
          have hfin2 : ∀ f2 ∈ f :: fl2, abEnd b ≤ f2.addr ∧ fbEnd f2 ≤ h.N ∧
              SECRET_SIZE ≤ f2.size := by
            intro f2 hf2
            have h3 := hfin f2 hf2
            rcases List.mem_cons.mp hf2 with rfl | hf3
            · exact ⟨habf, h3.2.1, h3.2.2⟩
            · have hs := hfrest f2 hf3
              unfold fbSep fbEnd at hs
              exact ⟨by omega, h3.2.1, h3.2.2⟩
          have hain2 : ∀ b2 ∈ al2, abEnd b ≤ b2.addr ∧ abEnd b2 ≤ h.N ∧
              SECRET_SIZE ≤ b2.size := by
            intro b2 hb2
            have h3 := hain b2 (List.mem_cons_of_mem b hb2)
            exact ⟨harest b2 hb2, h3.2.1, h3.2.2⟩
          have hdisj2 : ∀ f2 ∈ f :: fl2, ∀ b2 ∈ al2,
              fbEnd f2 ≤ b2.addr ∨ abEnd b2 ≤ f2.addr :=
            fun f2 hf2 b2 hb2 => hdisj f2 hf2 b2 (List.mem_cons_of_mem b hb2)
          have hpack := packSum_le (N := h.N) n (f :: fl2) al2 (abEnd b)
            (by simp only [List.length_cons] at hlen ⊢; omega)
            hfch hach.tail
            (by intro f2 hf2; exact ⟨(hfin2 f2 hf2).1, (hfin2 f2 hf2).2.1⟩)
            (by intro b2 hb2; exact ⟨(hain2 b2 hb2).1, (hain2 b2 hb2).2.1⟩)
            hdisj2 hbend
          have haeq : b.addr = a := by
            rw [sumAB_cons] at hsum
            unfold abEnd at hpack hbend
            omega
          have hsum2 : sumFB (f :: fl2) + sumAB al2 = h.N - abEnd b := by
            rw [sumAB_cons] at hsum
            unfold abEnd at hbend ⊢
            omega
          have hfind2 : ∀ b2 ∈ al2, findA h.allocList b2.addr = some b2 :=
            fun b2 hb2 => hfind b2 (List.mem_cons_of_mem b hb2)
          have hih := ih (f :: fl2) al2 (abEnd b)
            (by simp only [List.length_cons] at hlen ⊢; omega)
            hfch hach.tail hfin2 hain2 hdisj2 hfind2 hsum2 hbend
          have hbW : b.size < W64 := by
            unfold abEnd at hbend
            omega
          have hcsb : cSub b.size SECRET_SIZE = b.size - SECRET_SIZE :=
            cSub_eq hbsz hbW
          constructor
          · intro fuel hfuel
            have hfuel2 : (b :: al2).length < fuel := by
              rcases hfuel with hfuel | hfuel
              · exact hfuel
              · simp at hfuel
            cases fuel with
            | zero => exact absurd hfuel2 (by omega)
            | succ m =>
              simp only [showWalk]
              have hnc : ¬ (some a = ((f :: fl2).head?.map FB.addr) ∨
                  h.N - 1 ≤ a) := by
                simp only [List.head?_cons, Option.map_some']
                have hbe := hbend
                unfold abEnd at hbe
                rintro (hx | hx)
                · simp only [Option.some.injEq] at hx
                  omega
                · omega
              rw [if_neg hnc]
              have hfa : findA h.allocList a = some b := by
                rw [← haeq]
                exact hfind b (by simp)
              rw [hfa]
              dsimp only
              rw [List.cons_append]
              have hw := hih.1 m (Or.inl (by
                simp only [List.length_cons] at hfuel2
                omega))
              unfold abEnd at hw
              rw [haeq] at hw
              rw [hw]
              rw [hcsb]
              simp only [traceSpec]
              rw [if_pos hcmp]
              rw [haeq]
          · simp only [traceSpec]
            rw [if_pos hcmp]
            simp only [List.map_cons, evTile, tilesSpans,
              Bool.and_eq_true, beq_iff_eq]
            refine ⟨by omega, ?_⟩
            rw [show a + (b.size - SECRET_SIZE + SECRET_SIZE +
                MEM_FREE_BLOCK_SIZE) = abEnd b from by unfold abEnd; omega]
            exact hih.2
        · -- free head before the remaining allocated blocks
          have hf := hfin f (by simp)
          have hfend : fbEnd f ≤ h.N := hf.2.1
          have hfsz : SECRET_SIZE ≤ f.size := hf.2.2
          have hfb2 : fbEnd f ≤ b.addr := by
            rcases hdisj f (by simp) b (by simp) with hd | hd
            · exact hd
            · unfold abEnd at hd
              omega
          have hpf := chain_pairwise hfch
          have hfrest : ∀ f2 ∈ fl2, fbSep f f2 := (List.pairwise_cons.mp hpf).1
          have hpa := achain_pairwise hach
          have harest : ∀ b2 ∈ al2, abSep b b2 := (List.pairwise_cons.mp hpa).1
          have hfin2 : ∀ f2 ∈ fl2, fbEnd f ≤ f2.addr ∧ fbEnd f2 ≤ h.N ∧
              SECRET_SIZE ≤ f2.size := by
            intro f2 hf2
            have h3 := hfin f2 (List.mem_cons_of_mem f hf2)
            have hs := hfrest f2 hf2
            unfold fbSep at hs
            exact ⟨by omega, h3.2.1, h3.2.2⟩
          have hain2 : ∀ b2 ∈ b :: al2, fbEnd f ≤ b2.addr ∧ abEnd b2 ≤ h.N ∧
              SECRET_SIZE ≤ b2.size := by
            intro b2 hb2
            have h3 := hain b2 hb2
            rcases List.mem_cons.mp hb2 with rfl | hb3
            · exact ⟨hfb2, h3.2.1, h3.2.2⟩
            · have hs := harest b2 hb3
              unfold abSep abEnd at hs
              exact ⟨by omega, h3.2.1, h3.2.2⟩
          have hdisj2 : ∀ f2 ∈ fl2, ∀ b2 ∈ b :: al2,
              fbEnd f2 ≤ b2.addr ∨ abEnd b2 ≤ f2.addr :=
            fun f2 hf2 b2 hb2 => hdisj f2 (List.mem_cons_of_mem f hf2) b2 hb2
          have hpack := packSum_le (N := h.N) n fl2 (b :: al2) (fbEnd f)
            (by simp only [List.length_cons] at hlen ⊢; omega)
            hfch.tail hach
            (by intro f2 hf2; exact ⟨(hfin2 f2 hf2).1, (hfin2 f2 hf2).2.1⟩)
            (by intro b2 hb2; exact ⟨(hain2 b2 hb2).1, (hain2 b2 hb2).2.1⟩)
            hdisj2 hfend
          have haeq : f.addr = a := by
            rw [sumFB_cons] at hsum
            unfold fbEnd at hpack hfend
            omega
          have hsum2 : sumFB fl2 + sumAB (b :: al2) = h.N - fbEnd f := by
            rw [sumFB_cons] at hsum
            unfold fbEnd at hfend ⊢
            omega
          have hih := ih fl2 (b :: al2) (fbEnd f)
            (by simp only [List.length_cons] at hlen ⊢; omega)
            hfch.tail hach hfin2 hain2 hdisj2 hfind hsum2 hfend
          have hfW : f.size < W64 := by
            unfold fbEnd at hfend
            omega
          have hcsf : cSub f.size SECRET_SIZE = f.size - SECRET_SIZE :=
            cSub_eq hfsz hfW
          have hcond : ((b :: al2).length < h.N ∨ (b :: al2) = []) := by
            left
            have hlb := sumAB_lb (b :: al2)
            have hle : sumAB (b :: al2) ≤ h.N := by omega
            simp only [List.length_cons] at hlb ⊢
            omega
          constructor
          · intro fuel _
            rw [showWalk_stop (Or.inl (by
              simp only [List.head?_cons, Option.map_some']
              rw [haeq]))]
            simp only [List.nil_append, showFrees]
            have hw := hih.1 h.N hcond
            unfold fbEnd at hw
            rw [hw]
            rw [hcsf]
            simp only [traceSpec]
            rw [if_neg hcmp]
          · simp only [traceSpec]
            rw [if_neg hcmp]
            simp only [List.map_cons, evTile, tilesSpans,
              Bool.and_eq_true, beq_iff_eq]
            refine ⟨by omega, ?_⟩
            rw [show a + (f.size - SECRET_SIZE + SECRET_SIZE +
                MEM_FREE_BLOCK_SIZE) = fbEnd f from by unfold fbEnd; omega]
            exact hih.2

/-- C8 counterexample: on a fresh 4096-byte arena the claimed
(payload_start, user_size + header) ranges do not tile the arena offsets
[0, N): the single reported range starts 16 bytes past the arena start and
overshoots its end by 8. -/
theorem show_claimed_ranges_no_tile :
    tilesSpans ((mem_show (mem_init (2 ^ 32) 4096)).map
      (fun e => (e.pay, e.usize + MEM_FREE_BLOCK_SIZE))) 0 4096 = false := by
  decide

/-- C8 (amended): on a well-formed heap, mem_show reports exactly the
ascending merge of the free and allocated lists (each block once, in address
order), and the ranges (payload_start - header, user_size + guard + header)
tile the arena offsets [0, N) with no gaps and no overlaps. -/
theorem mem_show_trace_and_tiles (h : Heap) (hwf : WF h) :
    mem_show h = traceSpec h.freeList h.allocList ∧
    tilesSpans ((mem_show h).map evTile) 0 h.N = true := by
  obtain ⟨hN, hbase, hfch, hach, hfar, hdisj, hsum, hal⟩ := id hwf
  have hmaster := show_master h hN
    (h.freeList.length + h.allocList.length) h.freeList h.allocList 0
    le_rfl hfch hach
    (fun f hf => ⟨Nat.zero_le _, (hfar f hf).1, (hfar f hf).2⟩)
    (fun b hb => ⟨Nat.zero_le _, (hal b hb).1, (hal b hb).2.1⟩)
    hdisj
    (fun b hb => findA_self hach hb)
    (by omega)
    (Nat.zero_le _)
  have hcond : h.allocList.length < h.N ∨ h.allocList = [] := by
    cases hc : h.allocList with
    | nil => exact Or.inr rfl
    | cons x xs =>
      left
      have hlb := sumAB_lb h.allocList
      have hle : sumAB h.allocList ≤ h.N := by omega
      rw [hc] at hlb hle
      simp only [List.length_cons] at hlb ⊢
      omega
  have heq : mem_show h = traceSpec h.freeList h.allocList := by
    unfold mem_show
    exact hmaster.1 h.N hcond
  refine ⟨heq, ?_⟩
  rw [heq]
  exact hmaster.2

theorem mem_show_trace_and_tiles_witness :
    WF twoAllocHeap ∧
    (mem_show twoAllocHeap =
        traceSpec twoAllocHeap.freeList twoAllocHeap.allocList ∧
      tilesSpans ((mem_show twoAllocHeap).map evTile) 0 twoAllocHeap.N =
        true) :=
  ⟨by decide, mem_show_trace_and_tiles twoAllocHeap (by decide)⟩

end MemSpec
